import Mathlib

/-!
Shallow embedding of the `dts-bundler` core: the package-level dependency
graph (`DependencyGraph` in `dependency-graph-monorepo.ts`), the alias
hierarchy resolver (`PathHierarchyResolver`), and the per-entry bundler
(`DTSBundler` in `enhanced-bundler.ts`).  JavaScript `Map`s are embedded as
association lists in insertion order (`Map.set` updates in place, otherwise
appends), `Set`s as duplicate-free lists in insertion order, and file paths
as plain strings with POSIX-style path helpers.
-/

namespace DtsBundler

/-! ## JavaScript `Map` as an association list in insertion order -/

/-- `Map.get`: first (and only) binding of the key. -/
def mapFind {β : Type} (m : List (String × β)) (k : String) : Option β :=
  (m.find? (fun p => p.1 == k)).map (·.2)

/-- `Map.set`: update the existing binding in place, otherwise append. -/
def mapSet {β : Type} (m : List (String × β)) (k : String) (v : β) :
    List (String × β) :=
  if (m.find? (fun p => p.1 == k)).isSome then
    m.map (fun p => if p.1 == k then (k, v) else p)
  else m ++ [(k, v)]

/-- `Set.add` on a duplicate-free list: append unless already present. -/
def setAdd (s : List String) (x : String) : List String :=
  if x ∈ s then s else s ++ [x]

/-! ## Character-level string primitives

The JavaScript string operations are embedded character by character (the
source only ever applies them to ASCII path and identifier text), using
functions that the kernel can evaluate on concrete inputs. -/

/-- Is the first list a prefix of the second? -/
def isPrefixChars : List Char → List Char → Bool
  | [], _ => true
  | _ :: _, [] => false
  | a :: as, b :: bs => a = b && isPrefixChars as bs

/-- `String.prototype.startsWith`. -/
def strStartsWith (s pre : String) : Bool := isPrefixChars pre.toList s.toList

/-- `String.prototype.endsWith`. -/
def strEndsWith (s suf : String) : Bool :=
  isPrefixChars suf.toList.reverse s.toList.reverse

/-- Split a character list at every occurrence of `c`. -/
def splitChar (c : Char) : List Char → List (List Char)
  | [] => [[]]
  | a :: as =>
    let r := splitChar c as
    if a = c then [] :: r
    else
      match r with
      | [] => [[a]]
      | g :: gs => (a :: g) :: gs

/-- `String.prototype.slice(n)` on characters. -/
def strDrop (s : String) (n : Nat) : String := String.mk (s.toList.drop n)

/-- `String.prototype.length` (character count). -/
def strLength (s : String) : Nat := s.toList.length

/-- Join with `/` separators. -/
def joinSlash : List String → String
  | [] => ""
  | [s] => s
  | s :: rest => s ++ "/" ++ joinSlash rest

/-! ## Path helpers (`path` used in POSIX mode; `norm` replaces backslashes) -/

/-- `const norm = (p) => p.replace(/\\/g, '/')` (a character replacement). -/
def norm (p : String) : String :=
  String.mk (p.toList.map (fun c => if c = '\\' then '/' else c))

/-- Path split into non-empty segments. -/
def pathSegs (p : String) : List String :=
  ((splitChar '/' p.toList).map String.mk).filter (· ≠ "")

/-- Normalize segments of a relative path: drop `.`, fold `..` (keeping
leading `..` that cannot be folded). -/
def normSegsRel (segs : List String) : List String :=
  segs.foldl (fun acc s =>
    if s = "." then acc
    else if s = ".." then
      if acc ≠ [] ∧ acc.getLast? ≠ some ".." then acc.dropLast else acc ++ [s]
    else acc ++ [s]) []

/-- Normalize segments of an absolute path: drop `.`, fold `..` (a `..` at
the root disappears). -/
def normSegsAbs (segs : List String) : List String :=
  segs.foldl (fun acc s =>
    if s = "." then acc
    else if s = ".." then acc.dropLast
    else acc ++ [s]) []

/-- `path.posix.join(...parts)`: join the non-empty parts and normalize;
an empty result is `.`. -/
def pathJoinList (parts : List String) : String :=
  let p := joinSlash (parts.filter (· ≠ ""))
  let body := joinSlash
    (if strStartsWith p "/" then normSegsAbs (pathSegs p) else normSegsRel (pathSegs p))
  if strStartsWith p "/" then "/" ++ body
  else if body = "" then "." else body

/-- `path.join(a, b)`. -/
def pathJoin (a b : String) : String := pathJoinList [a, b]

/-- `path.resolve(base, rel)` with an absolute `base` (the only use in the
source): an absolute `rel` wins, otherwise it is appended and normalized. -/
def pathResolve (base rel : String) : String :=
  let combined := if strStartsWith rel "/" then rel else base ++ "/" ++ rel
  "/" ++ joinSlash (normSegsAbs (pathSegs combined))

/-- `path.dirname`. -/
def dirname (p : String) : String :=
  let isAbs := strStartsWith p "/"
  let segs := pathSegs p
  if segs.length ≤ 1 then (if isAbs then "/" else ".")
  else (if isAbs then "/" else "") ++ joinSlash segs.dropLast

/-- `path.basename`. -/
def basename (p : String) : String := (pathSegs p).getLast?.getD ""

/-! ## Entry points (`DtsEntryPoint` in the resolver module) -/

structure DtsEntryPoint where
  /-- the `alias` field of the source (`alias` is reserved in Lean) -/
  aliasName : String
  inputFile : String
  dtsFile : String
  aliasSegments : List String
  targetSegments : List String
  relativePath : Option String := none
  parentAlias : Option String := none
deriving Repr, DecidableEq, Inhabited

/-! ## Topological order (`DependencyGraph.topoSort`)

`this.edges` is embedded as `deps : String → List String` giving, for each
node, the duplicate-free list of entries it depends on (a missing key of the
mutable map behaves as the empty list everywhere the map is read).  The
in-degree counters are JavaScript numbers, embedded as `Int`. -/

/-- `outEdges` as built by `topoSort`: the nodes whose dependency set
contains `d`, in node-insertion order. -/
def outEdgesOf (nodes : List String) (deps : String → List String)
    (d : String) : List String :=
  nodes.filter (fun m => d ∈ deps m)

/-- Initial in-degrees: each node starts at the size of its dependency set
(each of its dependencies contributes one incoming reversed edge). -/
def indeg0 (nodes : List String) (deps : String → List String)
    (x : String) : Int :=
  if x ∈ nodes then ((deps x).length : Int) else 0

/-- The inner `for (const o of outEdges.get(n)!)` loop: decrement each
out-neighbour's in-degree and collect those that reach zero, in order. -/
def processOut (outs : List String) (indeg : String → Int) :
    (String → Int) × List String :=
  match outs with
  | [] => (indeg, [])
  | o :: rest =>
    let d := indeg o - 1
    let indeg1 := Function.update indeg o d
    let r := processOut rest indeg1
    (r.1, (if d = 0 then [o] else []) ++ r.2)

/-- The `while (queue.length)` loop of `topoSort`: shift the head of the
queue, append it to the order, decrement its out-neighbours and enqueue
those that reach in-degree zero.  The loop of the source terminates because
each iteration consumes one queue element and every node is enqueued at most
once; `fuel` bounds the number of iterations and `nodes.length + 1` is
always enough (proved in `kahnLoop_run`). -/
def kahnLoop (outEdges : String → List String) :
    Nat → List String → List String → (String → Int) → List String
  | 0, _, order, _ => order
  | _ + 1, [], order, _ => order
  | fuel + 1, n :: rest, order, indeg =>
    let r := processOut (outEdges n) indeg
    kahnLoop outEdges fuel (rest ++ r.2) (order ++ [n]) r.1

/-- `DependencyGraph.topoSort()`: Kahn's algorithm over the reversed edge
set, then any node not yet placed is appended in original entry order. -/
def topoSort (nodes : List String) (deps : String → List String) :
    List String :=
  let order := kahnLoop (outEdgesOf nodes deps) (nodes.length + 1)
    (nodes.filter (fun n => indeg0 nodes deps n = 0)) []
    (indeg0 nodes deps)
  order ++ nodes.filter (fun n => ¬ n ∈ order)

/-- Irreflexivity of the transitive closure of the dependency relation
(`b ∈ deps a` read as "a depends on b"): no entry transitively depends on
itself. -/
def Acyclic (deps : String → List String) : Prop :=
  ∀ x, ¬ Relation.TransGen (fun a b => b ∈ deps a) x x

/-- Every element of the list has all of its dependencies strictly earlier
in the list. -/
def DepsBefore (deps : String → List String) (l : List String) : Prop :=
  ∀ i (h : i < l.length), ∀ d ∈ deps l[i], d ∈ l.take i

/-- Loop invariant of `topoSort`'s Kahn phase, relating the pending queue,
the emitted order and the in-degree counters. -/
structure KahnInv (nodes : List String) (deps : String → List String)
    (queue order : List String) (indeg : String → Int) : Prop where
  qsub : queue ⊆ nodes
  osub : order ⊆ nodes
  qnd : queue.Nodup
  ond : order.Nodup
  disj : ∀ x ∈ queue, x ∉ order
  ideg : ∀ x ∈ nodes,
    indeg x = (((deps x).filter (fun d => ¬ d ∈ order)).length : Int)
  mem : ∀ x ∈ nodes, (x ∈ queue ∨ x ∈ order) ↔ (∀ d ∈ deps x, d ∈ order)

/-- A two-node dependency map used to exercise the graph theorems on a
concrete input: `"b"` depends on `"a"`. -/
def depsW : String → List String := fun s => if s = "b" then ["a"] else []

/-! ## Specifier map and specifier resolution (`DependencyGraph`)

`sourceFileCache` is embedded as the list `cache` of the normalized file
names the program loaded; `specifierToDts` and `entryRoots` as association
lists in insertion order. -/

/-- Strip one maximal trailing run of `c` (the `/x+$/` replacements). -/
def stripTrailing (c : Char) (s : String) : String :=
  String.mk (s.toList.reverse.dropWhile (· = c)).reverse

/-- The `cleaned` alias of `buildSpecifierMap`:
`alias.replace(/\*+$/, '').replace(/\/+$/, '')`. -/
def cleanedAlias (a : String) : String := stripTrailing '/' (stripTrailing '*' a)

/-- The body of `buildSpecifierMap`'s loop for one entry point: skip
alias-less entries and entries whose declaration file is not loaded;
otherwise register the exact alias, the cleaned alias when non-empty and
different, and — when the target is a canonical `index.d.ts` — the cleaned
(barrel-directory) specifier once more. -/
def specifierStep (cache : List String) (m : List (String × String))
    (ep : DtsEntryPoint) : List (String × String) :=
  if ep.aliasName = "" then m
  else
    let file := norm ep.dtsFile
    if file ∈ cache then
      let m1 := mapSet m ep.aliasName file
      let cleaned := cleanedAlias ep.aliasName
      let m2 := if cleaned ≠ "" ∧ cleaned ≠ ep.aliasName then mapSet m1 cleaned file
        else m1
      if basename file = "index.d.ts" then mapSet m2 cleaned file else m2
    else m

/-- `DependencyGraph.buildSpecifierMap` (the map is cleared first, so the
fold starts from the empty map). -/
def buildSpecifierMap (entryPoints : List DtsEntryPoint) (cache : List String) :
    List (String × String) :=
  entryPoints.foldl (specifierStep cache) []

/-- The `entryRoots` map built by the constructor: the directory of each
entry's (normalized) declaration file when that file is loaded, the file
itself otherwise. -/
def buildEntryRoots (entryPoints : List DtsEntryPoint) (cache : List String) :
    List (String × String) :=
  entryPoints.foldl (fun m ep =>
    let file := norm ep.dtsFile
    if file ∈ cache then mapSet m file (norm (dirname file))
    else mapSet m file file) []

/-- The nested-alias loop of `resolveSpecifierToFile`: for the first alias
that prefixes the specifier (followed by `/`) and yields a loaded candidate,
return that candidate.  (The source tries `.d.ts`, then an `index.d.ts`
barrel, then a textually identical third "directory barrel" candidate.) -/
def nestedAliasLookupFile (cache : List String) (specMap : List (String × String))
    (spec : String) : Option String :=
  specMap.findSome? (fun p =>
    if strStartsWith spec (p.1 ++ "/") then
      let remaining := strDrop spec (strLength p.1 + 1)
      let baseDir := dirname p.2
      let candidate := pathJoin baseDir (remaining ++ ".d.ts")
      if candidate ∈ cache then some candidate
      else
        let barrelCandidate := pathJoinList [baseDir, remaining, "index.d.ts"]
        if barrelCandidate ∈ cache then some barrelCandidate else none
    else none)

/-- `DependencyGraph.resolveSpecifierToFile`. -/
def resolveSpecifierToFile (cache : List String)
    (specMap : List (String × String)) (fromFile spec : String) :
    Option String :=
  if strStartsWith spec "." then
    let base := norm (pathResolve (dirname fromFile) spec)
    if base ∈ cache then some base
    else
      match [".d.ts", ".d.mts", ".mjs", ".js", ".ts"].find?
          (fun ext => (base ++ ext) ∈ cache) with
      | some ext => some (base ++ ext)
      | none =>
        [norm (pathJoin base "index.d.ts"), norm (pathJoin base "index.d.mts"),
          norm (pathJoin base "index.mjs")].find? (· ∈ cache)
  else
    match mapFind specMap spec with
    | some target =>
      if target ∈ cache then some target
      else nestedAliasLookupFile cache specMap spec
    | none => nestedAliasLookupFile cache specMap spec

/-- The nested-alias loop of `resolveSpecifierToEntry`: the first alias that
prefixes the specifier (followed by `/`) resolves to its mapped file. -/
def nestedAliasLookupEntry (specMap : List (String × String)) (spec : String) :
    Option String :=
  (specMap.find? (fun p => strStartsWith spec (p.1 ++ "/"))).map (·.2)

/-- `DependencyGraph.resolveSpecifierToEntry`.  A missing or empty
(JavaScript-falsy) entry root aborts the resolution; a relative specifier is
resolved to a file and matched against the node whose root prefixes it and
equals the origin's root; otherwise the alias map is consulted directly and
then by longest-prefix scan. -/
def resolveSpecifierToEntry (nodes : List String)
    (entryRoots specMap : List (String × String)) (cache : List String)
    (spec fromFile : String) : Option String :=
  match mapFind entryRoots fromFile with
  | none => none
  | some entryRoot =>
    if entryRoot = "" then none
    else if strStartsWith spec "." then
      match resolveSpecifierToFile cache specMap fromFile spec with
      | none => none
      | some resolvedFile =>
        nodes.find? (fun entry =>
          match mapFind entryRoots entry with
          | some r => ¬ r = "" ∧ strStartsWith resolvedFile r ∧ r = entryRoot
          | none => false)
    else
      match mapFind specMap spec with
      | some target =>
        if target ∈ cache then some target
        else nestedAliasLookupEntry specMap spec
      | none => nestedAliasLookupEntry specMap spec

/-- `DependencyGraph.buildEdges`: for each entry with a collected import
map, resolve every imported specifier and keep the distinct resolved entries
other than the entry itself (`imports` maps an entry to the key list of its
`importedTypes` map, `none` when the entry has no such map). -/
def buildEdges (nodes : List String) (entryRoots specMap : List (String × String))
    (cache : List String) (imports : String → Option (List String)) :
    List (String × List String) :=
  nodes.foldl (fun acc entry =>
    match imports entry with
    | none => acc
    | some specs =>
      let deps := specs.foldl (fun ds spec =>
        match resolveSpecifierToEntry nodes entryRoots specMap cache spec entry with
        | none => ds
        | some resolved => if resolved = entry then ds else setAdd ds resolved) []
      mapSet acc entry deps) []

/-- `DependencyGraph.getExportsForEntry`: the collected exported-type set of
the entry, or a fresh empty set when none was collected. -/
def getExportsForEntry (exportedTypes : List (String × List String))
    (entryFile : String) : List String :=
  (mapFind exportedTypes entryFile).getD []

/-! ## Reachability traversal (`DependencyGraph.findAllDtsFilesFromEntry`)

`specsOf` gives the module specifiers `findImportsAndExports` reports for a
file, in syntax-tree order. -/

/-- The `while (queue.length)` loop: pop the last queued file; skip it if
already seen, not loaded, not a declaration file, or outside the entry
root; otherwise record it and enqueue its unseen resolved specifiers.
The source's loop terminates because every iteration pops one file and
enqueuing only happens for loaded files the first time they are seen;
`fuel` bounds the iteration count. -/
def findAllLoop (cache : List String) (specMap : List (String × String))
    (specsOf : String → List String) (root : String) :
    Nat → List String → List String → List String
  | 0, _, seen => seen
  | fuel + 1, q, seen =>
    match q.getLast? with
    | none => seen
    | some file =>
      let q1 := q.dropLast
      let nf := norm file
      if nf ∈ seen then findAllLoop cache specMap specsOf root fuel q1 seen
      else if ¬ (nf ∈ cache ∧ (strEndsWith nf ".d.ts" ∨ strEndsWith nf ".d.mts")) then
        findAllLoop cache specMap specsOf root fuel q1 seen
      else if ¬ strStartsWith nf root then
        findAllLoop cache specMap specsOf root fuel q1 seen
      else
        let seen1 := seen ++ [nf]
        let pushes := (specsOf nf).foldl (fun acc spec =>
          if spec = "" then acc
          else
            match resolveSpecifierToFile cache specMap nf spec with
            | none => acc
            | some resolved =>
              if resolved = "" ∨ resolved ∈ seen1 then acc else acc ++ [resolved]) []
        findAllLoop cache specMap specsOf root fuel (q1 ++ pushes) seen1

/-- A fuel bound sufficient for the traversal: one iteration per initially
queued file plus, for every file that can ever be recorded, one iteration
for itself and one per specifier it can enqueue. -/
def findAllFuel (cache : List String) (specsOf : String → List String) : Nat :=
  1 + cache.foldl (fun n f => n + (specsOf f).length + 2) 0

/-- `DependencyGraph.findAllDtsFilesFromEntry`, with `root` the entry's
`entryRoots` binding (the constructor records one for every entry). -/
def findAllDtsFilesFromEntry (cache : List String)
    (specMap : List (String × String)) (specsOf : String → List String)
    (root entry : String) : List String :=
  findAllLoop cache specMap specsOf root (findAllFuel cache specsOf) [entry] []

/-- Concrete entry points, file cache and import map exercising the graph
construction on a two-package workspace (`@a`, `@b`; `@b` imports `@a`). -/
def epW1 : DtsEntryPoint :=
  { aliasName := "@a", inputFile := "a", dtsFile := "/a/index.d.ts",
    aliasSegments := ["@a"], targetSegments := ["a"] }

def epW2 : DtsEntryPoint :=
  { aliasName := "@b", inputFile := "b", dtsFile := "/b/index.d.ts",
    aliasSegments := ["@b"], targetSegments := ["b"] }

def cacheW : List String := ["/a/index.d.ts", "/b/index.d.ts"]

def importsW : String → Option (List String) :=
  fun s => if s = "/b/index.d.ts" then some ["@a"] else none

/-! ## Alias hierarchy (`PathHierarchyResolver`) -/

/-- `PathHierarchyResolver.findCommonPrefix`: longest shared leading run of
segments (the loop pushes while equal and breaks at the first mismatch). -/
def findCommonPrefix : List String → List String → List String
  | a :: as, b :: bs => if a = b then a :: findCommonPrefix as bs else []
  | _, _ => []

/-- Stable insertion used to embed the stable
`nodes.sort((a, b) => a.segments.length - b.segments.length)`. -/
def insertByLen (x : DtsEntryPoint) : List DtsEntryPoint → List DtsEntryPoint
  | [] => [x]
  | y :: rest =>
    if x.aliasSegments.length < y.aliasSegments.length then x :: y :: rest
    else y :: insertByLen x rest

/-- The sorted node array of `buildHierarchy` (stable sort by ascending
segment count). -/
def sortBySegLength (entryPoints : List DtsEntryPoint) : List DtsEntryPoint :=
  entryPoints.foldl (fun acc ep => insertByLen ep acc) []

/-- The parent search of `buildHierarchy` for the node at index `i` of the
sorted array: scan the already-placed indices `j < i`, keeping the candidate
whose whole segment list is a common prefix strictly longer than the best so
far and strictly shorter than the current node's. -/
def bestParentIdx (sorted : List DtsEntryPoint) (i : Nat) : Option Nat :=
  ((List.range i).foldl (fun (st : Option Nat × Nat) j =>
    let cur := (sorted.getD i default).aliasSegments
    let cand := (sorted.getD j default).aliasSegments
    let cp := findCommonPrefix cur cand
    if cp.length = cand.length ∧ cp.length > st.2 ∧ cp.length < cur.length
    then (some j, cp.length) else st) (none, 0)).1

/-- `PathHierarchyResolver.buildHierarchy`, reified as the parent index (in
sorted order) of every sorted node; `none` marks a root. -/
def buildHierarchyParents (entryPoints : List DtsEntryPoint) : List (Option Nat) :=
  let sorted := sortBySegLength entryPoints
  (List.range sorted.length).map (bestParentIdx sorted)

/-- The children of sorted node `j`, in attachment order (ascending index,
since only later nodes attach to earlier ones). -/
def childrenIdx (sorted : List DtsEntryPoint) (j : Nat) : List Nat :=
  (List.range sorted.length).filter (fun i => bestParentIdx sorted i = some j)

/-- The recursive `processNode` of `calculateRelativePaths`: compute the
node's relative path and parent alias, emit the matching original entry
point updated with them, then recurse into the children.  Children always
have strictly larger sorted indices, so a recursion depth of the node count
(`fuel`) is always enough. -/
def processNode (entryPoints sorted : List DtsEntryPoint) :
    Nat → Nat → String → List DtsEntryPoint
  | 0, _, _ => []
  | fuel + 1, i, parentRelativePath =>
    let node := sorted.getD i default
    let rp :=
      match bestParentIdx sorted i with
      | some j =>
        let parent := sorted.getD j default
        let remainingSegments := node.aliasSegments.drop parent.aliasSegments.length
        let relativePath :=
          if remainingSegments.length > 0 then
            pathJoinList (parentRelativePath :: remainingSegments)
          else if parentRelativePath ≠ "" then parentRelativePath else "."
        (relativePath, some parent.aliasName)
      | none => (".", (none : Option String))
    let entryOut :=
      match entryPoints.find? (fun ep => ep.aliasName == node.aliasName) with
      | some original =>
        [{ original with
            relativePath := some (if strStartsWith rp.1 "." then rp.1
              else "./" ++ rp.1),
            parentAlias := rp.2 }]
      | none => []
    entryOut ++ (childrenIdx sorted i).foldl (fun acc c =>
      acc ++ processNode entryPoints sorted fuel c rp.1) []

/-- `PathHierarchyResolver.calculateRelativePaths`: depth-first walk from
each root in sorted order. -/
def calculateRelativePaths (entryPoints : List DtsEntryPoint) :
    List DtsEntryPoint :=
  let sorted := sortBySegLength entryPoints
  ((List.range sorted.length).filter (fun i => bestParentIdx sorted i = none)).foldl
    (fun acc r => acc ++ processNode entryPoints sorted sorted.length r "") []

/-- The two entry points of the hierarchy example
`{"@pkg/a": "src/a", "@pkg/a/sub": "src/a/sub"}` (segments as split by
`alias.split('/').filter(s => s)`). -/
def epP1 : DtsEntryPoint :=
  { aliasName := "@pkg/a", inputFile := "src/a", dtsFile := "",
    aliasSegments := ["@pkg", "a"], targetSegments := ["src", "a"] }

def epP2 : DtsEntryPoint :=
  { aliasName := "@pkg/a/sub", inputFile := "src/a/sub", dtsFile := "",
    aliasSegments := ["@pkg", "a", "sub"], targetSegments := ["src", "a", "sub"] }

/-! ## Import alias generation (`DTSBundler.getImportAlias`) -/

/-- `[a-zA-Z0-9]`. -/
def isAlnum (c : Char) : Bool :=
  ('a' ≤ c ∧ c ≤ 'z') ∨ ('A' ≤ c ∧ c ≤ 'Z') ∨ ('0' ≤ c ∧ c ≤ '9')

/-- `.replace(/[^a-zA-Z0-9]/g, '_')`. -/
def replaceNonAlnum (l : List Char) : List Char :=
  l.map (fun c => if isAlnum c then c else '_')

/-- `.replace(/^_+/, '')`. -/
def dropLeadingUnderscores (l : List Char) : List Char := l.dropWhile (· = '_')

/-- `.replace(/_+/g, '_')`: collapse every run of underscores to one. -/
def collapseUnderscores : List Char → List Char
  | [] => []
  | [c] => [c]
  | a :: b :: rest =>
    if a = '_' ∧ b = '_' then collapseUnderscores (b :: rest)
    else a :: collapseUnderscores (b :: rest)

/-- `DTSBundler.getImportAlias`: sanitize the module specifier in the
source's order (replace, drop the leading run, collapse), with the literal
`external` as fallback for an empty (falsy) result. -/
def getImportAlias (s : String) : String :=
  let r := collapseUnderscores (dropLeadingUnderscores (replaceNonAlnum s.toList))
  if r = [] then "external" else String.mk r

/-- The alias derivation in the order the specification words it: strip
non-alphanumeric characters, collapse repeats, then drop the leading
underscore, with the same `external` fallback. -/
def getImportAliasSpec (s : String) : String :=
  let r := dropLeadingUnderscores (collapseUnderscores (replaceNonAlnum s.toList))
  if r = [] then "external" else String.mk r

/-! ## Export-declaration handler (`DTSBundler.processExportDeclaration`) -/

/-- `DTSBundler.isSamePackage`. -/
def isSamePackage (moduleSpecifier : String) : Bool :=
  strStartsWith moduleSpecifier "./" || strStartsWith moduleSpecifier "../" ||
    moduleSpecifier == "." || moduleSpecifier == ".."

/-- A `const` binding between hoisting and initialization is in the
temporal dead zone; reading it throws a `ReferenceError`. -/
inductive ConstBinding (α : Type) where
  | tdz
  | ready (a : α)

/-- Read a `const` binding. -/
def readConst {α : Type} : ConstBinding α → Except String α
  | .tdz => .error "ReferenceError: modulePath is not initialized"
  | .ready a => .ok a

/-- `Array.prototype.find` with a predicate that may throw. -/
def findThrow {α : Type} (p : α → Except String Bool) :
    List α → Except String (Option α)
  | [] => .ok none
  | a :: rest => do
    let b ← p a
    if b then return (some a) else findThrow p rest

/-- The same-package branch of `processExportDeclaration`
(`enhanced-bundler.ts` lines 235-239), statement by statement: the `find`
callback compares each program file name against `modulePath`, whose `const`
declaration is the *next* statement and is therefore still in its temporal
dead zone; when the program has no files the callback never runs and the
non-null assertion `sourceFile!.fileName` instead dereferences `undefined`.
`fileNames` lists the program's source-file names and `resolveModulePath`
embeds the (never reached) path computation. -/
def samePkgExportBranch (fileNames : List String)
    (resolveModulePath : String → String → String) (moduleSpecifier : String) :
    Except String Unit := do
  let modulePath : ConstBinding String := .tdz
  let sourceFile ← findThrow
    (fun f => (readConst modulePath).map (fun mp => f = mp)) fileNames
  match sourceFile with
  | none => .error "TypeError: cannot read fileName of undefined"
  | some sf =>
    let _ := resolveModulePath moduleSpecifier sf
    pure ()

/-- `DTSBundler.processExportDeclaration` on a declaration carrying a named
export clause: record the element names; with a module specifier, external
specifiers join the external-import set while same-package (relative) ones
enter the defective branch.  Returns the recorded names and the external
imports added, or the thrown error. -/
def processExportDeclaration (fileNames : List String)
    (resolveModulePath : String → String → String)
    (namedElements : Option (List String)) (moduleSpecifier : Option String) :
    Except String (List String × List String) :=
  match namedElements with
  | none => .ok ([], [])
  | some els =>
    match moduleSpecifier with
    | none => .ok (els, [])
    | some spec =>
      if isSamePackage spec then
        match samePkgExportBranch fileNames resolveModulePath spec with
        | .error e => .error e
        | .ok _ => .ok (els, [])
      else .ok (els, [spec])

/-! ## Bundle generation (`DTSBundler.generateBundle`)

The statement texts of the transformed files enter as opaque strings; the
generation pass only distinguishes import declarations, bare
`export * from`, named `export { … } from`, and other statements. -/

/-- The default `Array.prototype.sort()` string comparison: lexicographic by
character code. -/
def lexLe : List Char → List Char → Bool
  | [], _ => true
  | _ :: _, [] => false
  | a :: as, b :: bs => if a = b then lexLe as bs else decide (a < b)

/-- The sort order as a decidable relation on strings. -/
def strLeP (a b : String) : Prop := lexLe a.toList b.toList = true

instance : DecidableRel strLeP := fun a b =>
  inferInstanceAs (Decidable (lexLe a.toList b.toList = true))

/-- `Array.prototype.sort()` on strings. -/
def sortStrings (l : List String) : List String := l.insertionSort strLeP

/-- A top-level statement of a transformed file as the generation loop
classifies it, carrying its printed text. -/
inductive Stmt where
  | importDecl (text : String)
  | exportStarFrom (spec : String) (text : String)
  | exportNamedFrom (spec : String) (text : String)
  | other (text : String)
deriving Repr, DecidableEq

/-- ASCII `\s` (the whitespace occurring in printed declaration texts). -/
def isWs (c : Char) : Bool := c = ' ' ∨ c = '\t' ∨ c = '\n' ∨ c = '\r'

/-- The two JavaScript string quotes. -/
def isQuote (c : Char) : Bool := c = Char.ofNat 39 ∨ c = Char.ofNat 34

/-- Match the regular expression `\s+from\s+[quote][^quotes]+[quote]` at the
head of the character list, returning the match length. -/
def matchFromClause (l : List Char) : Option Nat :=
  let ws1 := l.takeWhile isWs
  if ws1.length = 0 then none
  else
    let rest1 := l.drop ws1.length
    if isPrefixChars ['f', 'r', 'o', 'm'] rest1 then
      let rest2 := rest1.drop 4
      let ws2 := rest2.takeWhile isWs
      if ws2.length = 0 then none
      else
        match rest2.drop ws2.length with
        | [] => none
        | q :: rest4 =>
          if isQuote q then
            let body := rest4.takeWhile (fun c => ¬ isQuote c)
            if body.length = 0 then none
            else
              match rest4.drop body.length with
              | q2 :: _ =>
                if isQuote q2 then
                  some (ws1.length + 4 + ws2.length + 1 + body.length + 1)
                else none
              | [] => none
          else none
    else none

/-- Remove the first match of the from-clause pattern (the
`.replace(/\s+from\s+['"][^'"]+['"]/, '')` of the generation loop). -/
def stripFirstFrom : List Char → List Char
  | [] => []
  | a :: rest =>
    match matchFromClause (a :: rest) with
    | some n => (a :: rest).drop n
    | none => a :: stripFirstFrom rest

/-- The from-clause removal on statement text. -/
def stripFromClause (s : String) : String := String.mk (stripFirstFrom s.toList)

/-- The symbol-recording step of `generateBundle`'s `interImports`
collection: an undeclared symbol joins the specifier's set, created on
first use. -/
def addSymbol (declared : List String) (k : String)
    (m : List (String × List String)) (sym : String) :
    List (String × List String) :=
  if sym ∈ declared then m
  else
    match mapFind m k with
    | none => mapSet m k [sym]
    | some syms => mapSet m k (setAdd syms sym)

/-- The `interImports` map of `generateBundle`: for every imported specifier
that does not resolve to the entry itself, collect the symbols the entry
does not declare, as a specifier-keyed map of symbol sets. -/
def interImportsOf (resolveEntry : String → Option String) (entryPoint : String)
    (declared : List String) (importedTypes : List (String × List String)) :
    List (String × List String) :=
  importedTypes.foldl (fun m p =>
    if resolveEntry p.1 = some entryPoint then m
    else p.2.foldl (addSymbol declared p.1) m) []

/-- Join with a separator. -/
def joinWith (sep : String) : List String → String
  | [] => ""
  | [s] => s
  | s :: rest => s ++ sep ++ joinWith sep rest

/-- A single-quoted specifier, as interpolated by the generation template
strings. -/
def quoted (s : String) : String :=
  String.mk (Char.ofNat 39 :: (s.toList ++ [Char.ofNat 39]))

/-- The lines a statement contributes to the output: imports are skipped,
bare same-package `export * from` statements are dropped, named
same-package `export { … } from` statements lose their from-clause, and
every emitted statement is followed by a blank line. -/
def stmtLines : Stmt → List String
  | .importDecl _ => []
  | .exportStarFrom spec text =>
    if isSamePackage spec then [] else [text, ""]
  | .exportNamedFrom spec text =>
    if isSamePackage spec then [stripFromClause text, ""] else [text, ""]
  | .other text => [text, ""]

/-- The lines of one processed file: its statements' lines, plus one blank
line when the file emitted anything (`hasDeclarations`). -/
def fileLines (stmts : List Stmt) : List String :=
  let lines := stmts.foldl (fun acc st => acc ++ stmtLines st) []
  if lines = [] then [] else lines ++ [""]

/-- `DTSBundler.generateBundle`: banner, sorted `import type * as` lines for
the external-import set, sorted inter-entry import lines for the undeclared
symbols of specifiers that resolve away from the entry, then the processed
statements of every file in program order, joined with newlines. -/
def generateBundle (banner : String) (externalImports : List String)
    (entryPoint : String) (resolveEntry : String → Option String)
    (declared : List String) (importedTypes : List (String × List String))
    (files : List (List Stmt)) : String :=
  let r0 : List String := if banner ≠ "" then [banner, ""] else []
  let r1 :=
    if externalImports ≠ [] then
      r0 ++ (sortStrings externalImports).map (fun importPath =>
        "import type * as " ++ getImportAlias importPath ++ " from " ++
          quoted importPath ++ ";") ++ [""]
    else r0
  let inter := interImportsOf resolveEntry entryPoint declared importedTypes
  let r2 :=
    if inter ≠ [] then
      r1 ++ (sortStrings (inter.map Prod.fst)).map (fun spec =>
        let syms := sortStrings ((mapFind inter spec).getD [])
        if syms ≠ [] then
          "import \x7b " ++ joinWith ", " syms ++ " \x7d from " ++ quoted spec ++ ";"
        else
          "import * as " ++ getImportAlias spec ++ " from " ++
            quoted spec ++ ";") ++ [""]
    else r1
  joinWith "\n" (files.foldl (fun acc stmts => acc ++ fileLines stmts) r2)

end DtsBundler
namespace DtsBundler

theorem processOut_fst (outs : List String) (indeg : String → Int)
    (hnd : outs.Nodup) (x : String) :
    (processOut outs indeg).1 x = if x ∈ outs then indeg x - 1 else indeg x := by
  induction outs generalizing indeg with
  | nil => simp [processOut]
  | cons o rest ih =>
    rcases List.nodup_cons.mp hnd with ⟨ho, hrest⟩
    simp only [processOut]
    rw [ih _ hrest]
    by_cases hx : x = o
    · subst hx
      simp [ho, Function.update_apply]
    · simp [Function.update_apply, hx, List.mem_cons]

theorem processOut_snd (outs : List String) (indeg : String → Int)
    (hnd : outs.Nodup) :
    (processOut outs indeg).2 = outs.filter (fun o => indeg o = 1) := by
  induction outs generalizing indeg with
  | nil => simp [processOut]
  | cons o rest ih =>
    rcases List.nodup_cons.mp hnd with ⟨ho, hrest⟩
    simp only [processOut]
    rw [ih _ hrest]
    have hfe : rest.filter (fun x => Function.update indeg o (indeg o - 1) x = 1)
        = rest.filter (fun x => indeg x = 1) := by
      apply List.filter_congr
      intro x hx
      have : x ≠ o := fun h => ho (h ▸ hx)
      simp [Function.update_apply, this]
    rw [hfe]
    by_cases h1 : indeg o = 1
    · have : indeg o - 1 = 0 := by omega
      simp [List.filter_cons, h1, this]
    · have : ¬ (indeg o - 1 = 0) := by omega
      simp [List.filter_cons, h1, this]

theorem length_filter_ne_of_nodup (L : List String) (n : String)
    (hnd : L.Nodup) (hm : n ∈ L) :
    (L.filter (fun d => d ≠ n)).length + 1 = L.length := by
  induction L with
  | nil => cases hm
  | cons a L ih =>
    rcases List.nodup_cons.mp hnd with ⟨ha, hL⟩
    by_cases h : a = n
    · subst h
      have : L.filter (fun d => d ≠ a) = L :=
        List.filter_eq_self.mpr (fun b hb => by
          have : b ≠ a := fun he => ha (he ▸ hb)
          simpa using this)
      simp [List.filter_cons, this]
      exact fun b hb he => ha (he ▸ hb)
    · have hm' : n ∈ L := by
        rcases List.mem_cons.mp hm with h' | h'
        · exact absurd h'.symm h
        · exact h'
      have hih := ih hL hm'
      rw [List.filter_cons, if_pos (by simp [h])]
      simp only [List.length_cons]
      omega

theorem eq_singleton_of_forall_eq (L : List String) (n : String)
    (hall : ∀ d ∈ L, d = n) (hm : n ∈ L) (hnd : L.Nodup) :
    L = [n] := by
  cases L with
  | nil => cases hm
  | cons a L =>
    have ha : a = n := hall a (List.mem_cons_self _ _)
    subst ha
    cases L with
    | nil => rfl
    | cons b L =>
      have hb : b = a := hall b (by simp)
      rcases List.nodup_cons.mp hnd with ⟨hna, _⟩
      exact absurd (by simp [hb]) hna

theorem indexOf_lt_of_mem_take (l : List String) (i : Nat) (d : String)
    (h : d ∈ l.take i) : l.indexOf d < i := by
  induction l generalizing i with
  | nil => simp at h
  | cons a l ih =>
    cases i with
    | zero => simp at h
    | succ j =>
      rw [List.take_succ_cons] at h
      by_cases hd : d = a
      · subst hd
        simp [List.indexOf_cons_self]
      · rcases List.mem_cons.mp h with h' | h'
        · exact absurd h' hd
        · have := ih j h'
          have hne : a ≠ d := fun he => hd he.symm
          rw [List.indexOf_cons_ne _ hne]
          omega

theorem kahnStep (nodes : List String) (deps : String → List String)
    (hnodes : nodes.Nodup) (hdn : ∀ x, (deps x).Nodup)
    (n : String) (rest order : List String) (indeg : String → Int)
    (hI : KahnInv nodes deps (n :: rest) order indeg) :
    KahnInv nodes deps
      (rest ++ (processOut (outEdgesOf nodes deps n) indeg).2)
      (order ++ [n])
      (processOut (outEdgesOf nodes deps n) indeg).1 := by
  have houts_nd : (outEdgesOf nodes deps n).Nodup := hnodes.filter _
  have hmem_outs : ∀ x, x ∈ outEdgesOf nodes deps n ↔ x ∈ nodes ∧ n ∈ deps x := by
    intro x; simp [outEdgesOf]
  have hn : n ∈ nodes := hI.qsub (List.mem_cons_self _ _)
  have hno : n ∉ order := hI.disj n (List.mem_cons_self _ _)
  have hrest_nd : rest.Nodup := (List.nodup_cons.mp hI.qnd).2
  have hn_rest : n ∉ rest := (List.nodup_cons.mp hI.qnd).1
  have hdepn : ∀ d ∈ deps n, d ∈ order :=
    (hI.mem n hn).mp (Or.inl (List.mem_cons_self _ _))
  have hsnd := processOut_snd (outEdgesOf nodes deps n) indeg houts_nd
  have hfst := processOut_fst (outEdgesOf nodes deps n) indeg houts_nd
  have hpush : ∀ x, x ∈ (processOut (outEdgesOf nodes deps n) indeg).2 ↔
      (x ∈ nodes ∧ n ∈ deps x ∧ indeg x = 1) := by
    intro x
    rw [hsnd]
    simp only [List.mem_filter, hmem_outs, decide_eq_true_eq]
    tauto
  -- an in-degree-one node with `n` among its dependencies has `n` as its only
  -- dependency outside `order`
  have key : ∀ x ∈ nodes, indeg x = 1 → n ∈ deps x →
      ∀ d ∈ deps x, d ∉ order → d = n := by
    intro x hx h1 hnx d hd hdo
    have hL := hI.ideg x hx
    rw [h1] at hL
    have hlen : ((deps x).filter (fun d => ¬ d ∈ order)).length = 1 := by omega
    rcases List.length_eq_one.mp hlen with ⟨a, hA⟩
    have hnL : n ∈ (deps x).filter (fun d => ¬ d ∈ order) := by
      simp [List.mem_filter, hnx, hno]
    have hdL : d ∈ (deps x).filter (fun d => ¬ d ∈ order) := by
      simp [List.mem_filter, hd, hdo]
    rw [hA] at hnL hdL
    simp at hnL hdL
    rw [hdL, hnL]
  -- conversely, a node all of whose out-of-order dependencies equal `n`
  -- has in-degree one
  have key2 : ∀ x ∈ nodes, n ∈ deps x →
      (∀ d ∈ deps x, d ∈ order ∨ d = n) → indeg x = 1 := by
    intro x hx hnx hall
    have hL := hI.ideg x hx
    have hsingle : (deps x).filter (fun d => ¬ d ∈ order) = [n] := by
      apply eq_singleton_of_forall_eq
      · intro d hd
        rw [List.mem_filter] at hd
        rcases hall d hd.1 with h | h
        · exact absurd h (by simpa using hd.2)
        · exact h
      · simp [List.mem_filter, hnx, hno]
      · exact ((hdn x).filter _)
    rw [hsingle] at hL
    simpa using hL
  constructor
  case qsub =>
    intro x hx
    rcases List.mem_append.mp hx with h | h
    · exact hI.qsub (List.mem_cons_of_mem _ h)
    · exact ((hpush x).mp h).1
  case osub =>
    intro x hx
    rcases List.mem_append.mp hx with h | h
    · exact hI.osub h
    · simpa using (List.mem_singleton.mp h) ▸ hn
  case qnd =>
    refine List.Nodup.append hrest_nd ?_ ?_
    · rw [hsnd]; exact houts_nd.filter _
    · intro x hxr hxp
      rcases (hpush x).mp hxp with ⟨hxn, hnx, _⟩
      have : ∀ d ∈ deps x, d ∈ order :=
        (hI.mem x hxn).mp (Or.inl (List.mem_cons_of_mem _ hxr))
      exact hno (this n hnx)
  case ond =>
    refine List.Nodup.append hI.ond (List.nodup_singleton n) ?_
    intro x hxo hxn
    rw [List.mem_singleton] at hxn
    exact hno (hxn ▸ hxo)
  case disj =>
    intro x hx
    rcases List.mem_append.mp hx with h | h
    · intro hmem
      rcases List.mem_append.mp hmem with h' | h'
      · exact hI.disj x (List.mem_cons_of_mem _ h) h'
      · rw [List.mem_singleton] at h'
        exact hn_rest (h' ▸ h)
    · rcases (hpush x).mp h with ⟨hxn, hnx, h1⟩
      intro hmem
      rcases List.mem_append.mp hmem with h' | h'
      · have : ∀ d ∈ deps x, d ∈ order := (hI.mem x hxn).mp (Or.inr h')
        exact hno (this n hnx)
      · rw [List.mem_singleton] at h'
        exact hno (hdepn n (h' ▸ hnx))
  case ideg =>
    intro x hx
    rw [hfst]
    by_cases hout : x ∈ outEdgesOf nodes deps n
    · have hnx : n ∈ deps x := ((hmem_outs x).mp hout).2
      have hfilter : (deps x).filter (fun d => ¬ d ∈ order ++ [n])
          = ((deps x).filter (fun d => ¬ d ∈ order)).filter (fun d => d ≠ n) := by
        rw [List.filter_filter]
        apply List.filter_congr
        intro d _
        simp [List.mem_append, not_or, And.comm]
      have hnL : n ∈ (deps x).filter (fun d => ¬ d ∈ order) := by
        simp [List.mem_filter, hnx, hno]
      have hlen := length_filter_ne_of_nodup _ n ((hdn x).filter _) hnL
      have hold := hI.ideg x hx
      rw [if_pos hout, hfilter, hold]
      omega
    · have hnnx : ¬ n ∈ deps x := fun h => hout ((hmem_outs x).mpr ⟨hx, h⟩)
      have hfilter : (deps x).filter (fun d => ¬ d ∈ order ++ [n])
          = (deps x).filter (fun d => ¬ d ∈ order) := by
        apply List.filter_congr
        intro d hd
        have hdn' : d ≠ n := fun he => hnnx (he ▸ hd)
        simp [List.mem_append, hdn']
      rw [if_neg hout, hfilter]
      exact hI.ideg x hx
  case mem =>
    intro x hx
    constructor
    · rintro (hq | ho)
      · rcases List.mem_append.mp hq with h | h
        · intro d hd
          exact List.mem_append_left _
            ((hI.mem x hx).mp (Or.inl (List.mem_cons_of_mem _ h)) d hd)
        · rcases (hpush x).mp h with ⟨hxn, hnx, h1⟩
          intro d hd
          by_cases hdo : d ∈ order
          · exact List.mem_append_left _ hdo
          · have := key x hxn h1 hnx d hd hdo
            subst this
            simp
      · rcases List.mem_append.mp ho with h | h
        · intro d hd
          exact List.mem_append_left _ ((hI.mem x hx).mp (Or.inr h) d hd)
        · rw [List.mem_singleton] at h
          subst h
          intro d hd
          exact List.mem_append_left _ (hdepn d hd)
    · intro hall
      by_cases hord : ∀ d ∈ deps x, d ∈ order
      · rcases (hI.mem x hx).mpr hord with h | h
        · rcases List.mem_cons.mp h with h' | h'
          · subst h'
            exact Or.inr (List.mem_append_right _ (by simp))
          · exact Or.inl (List.mem_append_left _ h')
        · exact Or.inr (List.mem_append_left _ h)
      · push_neg at hord
        rcases hord with ⟨d0, hd0, hd0o⟩
        have hd0n : d0 = n := by
          rcases List.mem_append.mp (hall d0 hd0) with h | h
          · exact absurd h hd0o
          · exact List.mem_singleton.mp h
        have hnx : n ∈ deps x := hd0n ▸ hd0
        have hallon : ∀ d ∈ deps x, d ∈ order ∨ d = n := by
          intro d hd
          rcases List.mem_append.mp (hall d hd) with h | h
          · exact Or.inl h
          · exact Or.inr (List.mem_singleton.mp h)
        have h1 := key2 x hx hnx hallon
        exact Or.inl (List.mem_append_right _ ((hpush x).mpr ⟨hx, hnx, h1⟩))

end DtsBundler
namespace DtsBundler

theorem depsBefore_append (deps : String → List String) (order : List String) (n : String)
    (hdb : DepsBefore deps order) (hdep : ∀ d ∈ deps n, d ∈ order) :
    DepsBefore deps (order ++ [n]) := by
  intro i h d hd
  have hlen : i < order.length + 1 := by simpa using h
  by_cases hi : i < order.length
  · rw [List.getElem_append_left hi] at hd
    rw [List.take_append_of_le_length (Nat.le_of_lt hi)]
    exact hdb i hi d hd
  · have hi' : i = order.length := by omega
    subst hi'
    rw [List.getElem_concat_length] at hd
    · rw [List.take_append_of_le_length (Nat.le_refl _), List.take_length]
      exact hdep d hd
    · rfl

theorem kahnLoop_run (nodes : List String) (deps : String → List String)
    (hnodes : nodes.Nodup) (hdn : ∀ x, (deps x).Nodup) :
    ∀ fuel queue order indeg, KahnInv nodes deps queue order indeg →
      DepsBefore deps order →
      ((kahnLoop (outEdgesOf nodes deps) fuel queue order indeg).Nodup ∧
       (kahnLoop (outEdgesOf nodes deps) fuel queue order indeg) ⊆ nodes) ∧
      DepsBefore deps (kahnLoop (outEdgesOf nodes deps) fuel queue order indeg) ∧
      (nodes.length + 1 ≤ fuel + order.length →
        ∀ x ∈ nodes,
          (x ∈ kahnLoop (outEdgesOf nodes deps) fuel queue order indeg ↔
           ∀ d ∈ deps x, d ∈ kahnLoop (outEdgesOf nodes deps) fuel queue order indeg)) := by
  intro fuel
  induction fuel with
  | zero =>
    intro queue order indeg hI hdb
    simp only [kahnLoop]
    refine ⟨⟨hI.ond, hI.osub⟩, hdb, ?_⟩
    intro hle
    have hlen : order.length ≤ nodes.length := (hI.ond.subperm hI.osub).length_le
    exact absurd hle (by omega)
  | succ fuel ih =>
    intro queue order indeg hI hdb
    cases queue with
    | nil =>
      simp only [kahnLoop]
      refine ⟨⟨hI.ond, hI.osub⟩, hdb, ?_⟩
      intro _ x hx
      have := hI.mem x hx
      simpa using this
    | cons n rest =>
      have hstep := kahnStep nodes deps hnodes hdn n rest order indeg hI
      have hdep : ∀ d ∈ deps n, d ∈ order :=
        (hI.mem n (hI.qsub (List.mem_cons_self _ _))).mp (Or.inl (List.mem_cons_self _ _))
      have hdb' := depsBefore_append deps order n hdb hdep
      have hrec := ih _ _ _ hstep hdb'
      simp only [kahnLoop]
      refine ⟨hrec.1, hrec.2.1, ?_⟩
      intro hle
      apply hrec.2.2
      simp only [List.length_append, List.length_singleton]
      omega

theorem kahnInv_init (nodes : List String) (deps : String → List String)
    (hnodes : nodes.Nodup) :
    KahnInv nodes deps (nodes.filter (fun n => indeg0 nodes deps n = 0)) []
      (indeg0 nodes deps) := by
  constructor
  case qsub => exact fun x hx => (List.mem_filter.mp hx).1
  case osub => intro x hx; cases hx
  case qnd => exact hnodes.filter _
  case ond => exact List.nodup_nil
  case disj => intro x _ hx; cases hx
  case ideg =>
    intro x hx
    simp [indeg0, hx]
  case mem =>
    intro x hx
    simp only [List.mem_filter, decide_eq_true_eq, List.not_mem_nil, or_false]
    constructor
    · rintro ⟨_, h0⟩ d hd
      exfalso
      simp only [indeg0, hx, if_true] at h0
      have : (deps x).length = 0 := by omega
      rw [List.length_eq_zero] at this
      rw [this] at hd
      cases hd
    · intro hall
      refine ⟨hx, ?_⟩
      have hnil : deps x = [] :=
        List.eq_nil_iff_forall_not_mem.mpr (fun d hd => (hall d hd).elim)
      simp [indeg0, hx, hnil]

end DtsBundler
namespace DtsBundler

theorem acyclic_of_rank (deps : String → List String) (rank : String → Nat)
    (h : ∀ a b, b ∈ deps a → rank b < rank a) : Acyclic deps := by
  intro x htg
  have hlt : ∀ y z, Relation.TransGen (fun a b => b ∈ deps a) y z → rank z < rank y := by
    intro y z htg'
    induction htg' with
    | single h1 => exact h _ _ h1
    | tail _ h2 ih => exact Nat.lt_trans (h _ _ h2) ih
  exact Nat.lt_irrefl _ (hlt x x htg)

/-- **C1.** For every duplicate-free node list and every dependency map with
duplicate-free dependency sets (cyclic or not), `topoSort` returns a
permutation of the node list. -/
theorem topoSort_perm (nodes : List String) (deps : String → List String)
    (hnodes : nodes.Nodup) (hdn : ∀ x, (deps x).Nodup) :
    (topoSort nodes deps).Perm nodes := by
  have hrun := kahnLoop_run nodes deps hnodes hdn (nodes.length + 1)
    (nodes.filter (fun n => indeg0 nodes deps n = 0)) [] (indeg0 nodes deps)
    (kahnInv_init nodes deps hnodes) (by intro i h d hd; simp at h)
  obtain ⟨⟨hrnd, hrsub⟩, _, _⟩ := hrun
  show ((kahnLoop (outEdgesOf nodes deps) (nodes.length + 1)
      (nodes.filter (fun n => indeg0 nodes deps n = 0)) [] (indeg0 nodes deps)) ++
      nodes.filter (fun n => ¬ n ∈ (kahnLoop (outEdgesOf nodes deps) (nodes.length + 1)
      (nodes.filter (fun n => indeg0 nodes deps n = 0)) [] (indeg0 nodes deps)))).Perm nodes
  set r := kahnLoop (outEdgesOf nodes deps) (nodes.length + 1)
    (nodes.filter (fun n => indeg0 nodes deps n = 0)) [] (indeg0 nodes deps) with hr
  have hnd : (r ++ nodes.filter (fun n => ¬ n ∈ r)).Nodup := by
    refine List.Nodup.append hrnd (hnodes.filter _) ?_
    intro a har haf
    rw [List.mem_filter] at haf
    exact absurd har (by simpa using haf.2)
  have hsub : (r ++ nodes.filter (fun n => ¬ n ∈ r)) ⊆ nodes := by
    intro a ha
    rcases List.mem_append.mp ha with h | h
    · exact hrsub h
    · exact (List.mem_filter.mp h).1
  have hsup : nodes ⊆ (r ++ nodes.filter (fun n => ¬ n ∈ r)) := by
    intro a ha
    by_cases har : a ∈ r
    · exact List.mem_append_left _ har
    · exact List.mem_append_right _ (List.mem_filter.mpr ⟨ha, by simpa using har⟩)
  exact (hnd.subperm hsub).antisymm (hnodes.subperm hsup)

/-- **C2.** For every acyclic dependency graph (duplicate-free nodes,
duplicate-free dependency sets drawn from the nodes), the order returned by
`topoSort` places every dependency strictly before its dependent. -/
theorem topoSort_deps_first (nodes : List String) (deps : String → List String)
    (hnodes : nodes.Nodup) (hdn : ∀ x, (deps x).Nodup)
    (hsub : ∀ x ∈ nodes, deps x ⊆ nodes) (hacyc : Acyclic deps)
    (x d : String) (hx : x ∈ nodes) (hd : d ∈ deps x) :
    (topoSort nodes deps).indexOf d < (topoSort nodes deps).indexOf x := by
  classical
  have hrun := kahnLoop_run nodes deps hnodes hdn (nodes.length + 1)
    (nodes.filter (fun n => indeg0 nodes deps n = 0)) [] (indeg0 nodes deps)
    (kahnInv_init nodes deps hnodes) (by intro i h d hd; simp at h)
  obtain ⟨⟨hrnd, hrsub⟩, hdb, hiff⟩ := hrun
  set r := kahnLoop (outEdgesOf nodes deps) (nodes.length + 1)
    (nodes.filter (fun n => indeg0 nodes deps n = 0)) [] (indeg0 nodes deps) with hr
  have hiff' := hiff (by simp)
  have hcomplete : ∀ y ∈ nodes, y ∈ r := by
    by_contra hc
    push_neg at hc
    obtain ⟨y0, hy0n, hy0r⟩ := hc
    set s : Finset String := nodes.toFinset.filter (fun y => ¬ y ∈ r) with hs
    have hy0s : y0 ∈ s := by
      simp only [hs, Finset.mem_filter, List.mem_toFinset]
      exact ⟨hy0n, hy0r⟩
    have hstepS : ∀ y ∈ s, ∃ d', d' ∈ deps y ∧ d' ∈ s := by
      intro y hy
      simp only [hs, Finset.mem_filter, List.mem_toFinset] at hy
      obtain ⟨hyn, hyr⟩ := hy
      have hnall : ¬ ∀ d' ∈ deps y, d' ∈ r := fun hall => hyr ((hiff' y hyn).mpr hall)
      push_neg at hnall
      obtain ⟨d', hd', hd'r⟩ := hnall
      refine ⟨d', hd', ?_⟩
      simp only [hs, Finset.mem_filter, List.mem_toFinset]
      exact ⟨hsub y hyn hd', hd'r⟩
    let f : {a // a ∈ s} → {a // a ∈ s} := fun y =>
      ⟨Classical.choose (hstepS y.1 y.2), (Classical.choose_spec (hstepS y.1 y.2)).2⟩
    have hfdep : ∀ y : {a // a ∈ s}, (f y).1 ∈ deps y.1 :=
      fun y => (Classical.choose_spec (hstepS y.1 y.2)).1
    have hchain : ∀ (k : Nat) (z : {a // a ∈ s}),
        Relation.TransGen (fun a b => b ∈ deps a) z.1 (f^[k + 1] z).1 := by
      intro k
      induction k with
      | zero => intro z; simpa using Relation.TransGen.single (hfdep z)
      | succ k ihk =>
        intro z
        rw [Function.iterate_succ_apply']
        exact Relation.TransGen.tail (ihk z) (hfdep _)
    have loop : ∀ m k : Nat, m < k → f^[m] ⟨y0, hy0s⟩ = f^[k] ⟨y0, hy0s⟩ → False := by
      intro m k hlt heq
      have hsplit : f^[k] ⟨y0, hy0s⟩ = f^[(k - m - 1) + 1] (f^[m] ⟨y0, hy0s⟩) := by
        rw [← Function.iterate_add_apply]
        congr 1
        omega
      have htg := hchain (k - m - 1) (f^[m] ⟨y0, hy0s⟩)
      rw [← hsplit, ← heq] at htg
      exact hacyc _ htg
    obtain ⟨m, k, hmk, heq⟩ :=
      Finite.exists_ne_map_eq_of_infinite (fun j : Nat => f^[j] ⟨y0, hy0s⟩)
    rcases lt_or_gt_of_ne hmk with hlt | hlt
    · exact loop m k hlt heq
    · exact loop k m hlt heq.symm
  have hfilter : nodes.filter (fun n => ¬ n ∈ r) = [] := by
    apply List.filter_eq_nil_iff.mpr
    intro a ha
    simp [hcomplete a ha]
  have htopo : topoSort nodes deps = r := by
    show r ++ nodes.filter (fun n => ¬ n ∈ r) = r
    rw [hfilter, List.append_nil]
  have hxr : x ∈ r := hcomplete x hx
  have hdr : d ∈ r := (hiff' x hx).mp hxr d hd
  obtain ⟨i, hi, hgeti⟩ := List.mem_iff_getElem.mp hxr
  have hdtake : d ∈ r.take i := hdb i hi d (by rw [hgeti]; exact hd)
  have h1 : r.indexOf d < i := indexOf_lt_of_mem_take r i d hdtake
  have h2 : r.indexOf x = i := by
    rw [← hgeti]
    exact List.indexOf_getElem hrnd i hi
  rw [htopo, h2]
  exact h1

theorem topoSort_perm_witness :
    (["a", "b"] : List String).Nodup ∧ (∀ x, (depsW x).Nodup) ∧
      (topoSort ["a", "b"] depsW).Perm ["a", "b"] :=
  ⟨by decide,
   fun x => by by_cases h : x = "b" <;> simp [depsW, h],
   topoSort_perm ["a", "b"] depsW (by decide)
     (fun x => by by_cases h : x = "b" <;> simp [depsW, h])⟩

theorem topoSort_deps_first_witness :
    (["a", "b"] : List String).Nodup ∧ (∀ x, (depsW x).Nodup) ∧
      (∀ x ∈ (["a", "b"] : List String), depsW x ⊆ ["a", "b"]) ∧ Acyclic depsW ∧
      "b" ∈ (["a", "b"] : List String) ∧ "a" ∈ depsW "b" ∧
      (topoSort ["a", "b"] depsW).indexOf "a" < (topoSort ["a", "b"] depsW).indexOf "b" := by
  have hdn : ∀ x, (depsW x).Nodup := fun x => by by_cases h : x = "b" <;> simp [depsW, h]
  have hsub : ∀ x ∈ (["a", "b"] : List String), depsW x ⊆ ["a", "b"] := by decide
  have hacyc : Acyclic depsW := by
    apply acyclic_of_rank depsW (fun s => if s = "b" then 1 else 0)
    intro a b hb
    by_cases ha : a = "b"
    · simp [depsW, ha] at hb
      simp [ha, hb]
    · simp [depsW, ha] at hb
  exact ⟨by decide, hdn, hsub, hacyc, by decide, by decide,
    topoSort_deps_first ["a", "b"] depsW (by decide) hdn hsub hacyc "b" "a"
      (by decide) (by decide)⟩

end DtsBundler
namespace DtsBundler

theorem foldl_inv {α β : Type} (P : β → Prop) (f : β → α → β) (l : List α)
    (init : β) (h0 : P init) (hstep : ∀ b a, a ∈ l → P b → P (f b a)) :
    P (l.foldl f init) := by
  induction l generalizing init with
  | nil => exact h0
  | cons x xs ih =>
    exact ih (f init x) (hstep init x (by simp) h0)
      (fun b a ha hb => hstep b a (by simp [ha]) hb)

theorem mem_mapSet {β : Type} (m : List (String × β)) (k : String) (v : β)
    (p : String × β) (h : p ∈ mapSet m k v) : p ∈ m ∨ p = (k, v) := by
  unfold mapSet at h
  by_cases hs : (m.find? (fun p => p.1 == k)).isSome
  · rw [if_pos hs] at h
    rcases List.mem_map.mp h with ⟨q, hq, hfq⟩
    by_cases hqk : q.1 == k
    · rw [if_pos hqk] at hfq
      exact Or.inr hfq.symm
    · rw [if_neg hqk] at hfq
      exact Or.inl (hfq ▸ hq)
  · rw [if_neg hs] at h
    rcases List.mem_append.mp h with h' | h'
    · exact Or.inl h'
    · exact Or.inr (List.mem_singleton.mp h')

theorem find?_map_preserve {β : Type} (m : List (String × β)) (k k' : String)
    (v : β) (hne : k' ≠ k) :
    ((m.map (fun p => if p.1 == k then (k, v) else p)).find?
      (fun p => p.1 == k')) = m.find? (fun p => p.1 == k') := by
  induction m with
  | nil => rfl
  | cons a m ih =>
    by_cases hak : a.1 == k
    · have hak' : a.1 = k := by simpa using hak
      simp only [List.map_cons, if_pos hak]
      rw [List.find?_cons, List.find?_cons]
      have h1 : ((k, v).1 == k') = false := by simpa using fun h => hne h.symm
      have h2 : (a.1 == k') = false := by
        simp only [hak']
        simpa using fun h => hne h.symm
      rw [h1, h2]
      exact ih
    · simp only [List.map_cons, if_neg hak]
      rw [List.find?_cons, List.find?_cons]
      cases hak' : (a.1 == k') with
      | true => rfl
      | false => exact ih

theorem find?_map_self {β : Type} (m : List (String × β)) (k : String) (v : β)
    (hsome : (m.find? (fun p => p.1 == k)).isSome) :
    ((m.map (fun p => if p.1 == k then (k, v) else p)).find?
      (fun p => p.1 == k)) = some (k, v) := by
  induction m with
  | nil => simp [List.find?] at hsome
  | cons a m ih =>
    by_cases hak : a.1 == k
    · simp only [List.map_cons, if_pos hak]
      rw [List.find?_cons]
      simp
    · simp only [List.map_cons, if_neg hak]
      rw [List.find?_cons]
      simp only [Bool.not_eq_true] at hak
      simp only [hak]
      apply ih
      rw [List.find?_cons] at hsome
      simp only [hak] at hsome
      exact hsome

theorem mapFind_mapSet {β : Type} (m : List (String × β)) (k k' : String) (v : β) :
    mapFind (mapSet m k v) k' = if k' = k then some v else mapFind m k' := by
  unfold mapFind mapSet
  by_cases hs : (m.find? (fun p => p.1 == k)).isSome
  · rw [if_pos hs]
    by_cases hk : k' = k
    · subst hk
      rw [find?_map_self m k' v hs]
      simp
    · rw [find?_map_preserve m k k' v hk, if_neg hk]
  · rw [if_neg hs]
    rw [List.find?_append]
    by_cases hk : k' = k
    · subst hk
      have hnone : m.find? (fun p => p.1 == k') = none := by
        cases hf : m.find? (fun p => p.1 == k') with
        | none => rfl
        | some q => rw [hf] at hs; simp at hs
      rw [hnone]
      simp
    · cases hf : m.find? (fun p => p.1 == k') with
      | none =>
        have hfalse : (k == k') = false := by simpa using fun h => hk h.symm
        simp [List.find?_cons, List.find?, hfalse, hk]
      | some q =>
        simp [hk]

end DtsBundler
namespace DtsBundler

theorem mapFind_mem {β : Type} (m : List (String × β)) (k : String) (v : β)
    (h : mapFind m k = some v) : ∃ p ∈ m, p.2 = v := by
  unfold mapFind at h
  cases hf : m.find? (fun p => p.1 == k) with
  | none => rw [hf] at h; cases h
  | some q =>
    rw [hf] at h
    exact ⟨q, List.mem_of_find?_eq_some hf, Option.some.inj h⟩

theorem nestedAliasLookupEntry_mem (specMap : List (String × String))
    (spec t : String) (h : nestedAliasLookupEntry specMap spec = some t) :
    ∃ p ∈ specMap, p.2 = t := by
  unfold nestedAliasLookupEntry at h
  cases hf : specMap.find? (fun p => strStartsWith spec (p.1 ++ "/")) with
  | none => rw [hf] at h; cases h
  | some q =>
    rw [hf] at h
    exact ⟨q, List.mem_of_find?_eq_some hf, Option.some.inj h⟩

theorem mapSet_forall_values {β : Type} (P : β → Prop) (m : List (String × β))
    (k : String) (v : β) (hm : ∀ q ∈ m, P q.2) (hv : P v) :
    ∀ q ∈ mapSet m k v, P q.2 := by
  intro q hq
  rcases mem_mapSet m k v q hq with h | h
  · exact hm q h
  · rw [h]; exact hv

theorem buildSpecifierMap_values (entryPoints : List DtsEntryPoint)
    (cache : List String) (p : String × String)
    (hp : p ∈ buildSpecifierMap entryPoints cache) :
    p.2 ∈ entryPoints.map (fun ep => norm ep.dtsFile) := by
  unfold buildSpecifierMap at hp
  refine foldl_inv
    (fun m => ∀ q ∈ m, q.2 ∈ entryPoints.map (fun ep => norm ep.dtsFile))
    (specifierStep cache) entryPoints [] (by simp) ?_ p hp
  intro m ep hep hm
  unfold specifierStep
  by_cases h1 : ep.aliasName = ""
  · rw [if_pos h1]; exact hm
  · rw [if_neg h1]
    by_cases h2 : norm ep.dtsFile ∈ cache
    · rw [if_pos h2]
      have hfile : norm ep.dtsFile ∈ entryPoints.map (fun ep => norm ep.dtsFile) :=
        List.mem_map_of_mem _ hep
      have hm1 := mapSet_forall_values _ m ep.aliasName (norm ep.dtsFile) hm hfile
      have hm2 : ∀ q ∈ (if cleanedAlias ep.aliasName ≠ "" ∧
          cleanedAlias ep.aliasName ≠ ep.aliasName then
          mapSet (mapSet m ep.aliasName (norm ep.dtsFile))
            (cleanedAlias ep.aliasName) (norm ep.dtsFile)
          else mapSet m ep.aliasName (norm ep.dtsFile)),
          q.2 ∈ entryPoints.map (fun ep => norm ep.dtsFile) := by
        by_cases h3 : cleanedAlias ep.aliasName ≠ "" ∧
            cleanedAlias ep.aliasName ≠ ep.aliasName
        · rw [if_pos h3]
          exact mapSet_forall_values _ _ _ _ hm1 hfile
        · rw [if_neg h3]; exact hm1
      by_cases h4 : basename (norm ep.dtsFile) = "index.d.ts"
      · rw [if_pos h4]
        exact mapSet_forall_values _ _ _ _ hm2 hfile
      · rw [if_neg h4]; exact hm2
    · rw [if_neg h2]; exact hm

theorem resolveSpecifierToEntry_mem (nodes : List String)
    (entryRoots specMap : List (String × String)) (cache : List String)
    (spec fromFile t : String)
    (h : resolveSpecifierToEntry nodes entryRoots specMap cache spec fromFile
      = some t) :
    t ∈ nodes ∨ ∃ p ∈ specMap, p.2 = t := by
  unfold resolveSpecifierToEntry at h
  cases hroot : mapFind entryRoots fromFile with
  | none => rw [hroot] at h; dsimp only at h; cases h
  | some entryRoot =>
    rw [hroot] at h
    dsimp only at h
    by_cases he : entryRoot = ""
    · rw [if_pos he] at h; cases h
    · rw [if_neg he] at h
      by_cases hrel : strStartsWith spec "."
      · rw [if_pos hrel] at h
        cases hres : resolveSpecifierToFile cache specMap fromFile spec with
        | none => rw [hres] at h; dsimp only at h; cases h
        | some resolvedFile =>
          rw [hres] at h
          dsimp only at h
          exact Or.inl (List.mem_of_find?_eq_some h)
      · rw [if_neg hrel] at h
        cases hmf : mapFind specMap spec with
        | some target =>
          rw [hmf] at h
          dsimp only at h
          by_cases hc : target ∈ cache
          · rw [if_pos hc] at h
            right
            rcases mapFind_mem specMap spec target hmf with ⟨q, hq, hq2⟩
            exact ⟨q, hq, hq2.trans (Option.some.inj h)⟩
          · rw [if_neg hc] at h
            exact Or.inr (nestedAliasLookupEntry_mem specMap spec t h)
        | none =>
          rw [hmf] at h
          dsimp only at h
          exact Or.inr (nestedAliasLookupEntry_mem specMap spec t h)

end DtsBundler
namespace DtsBundler

/-- **C3.** Every edge recorded by `buildEdges` goes to a resolved target
entry distinct from the source entry, and that target is itself one of the
graph's nodes. -/
theorem buildEdges_targets (entryPoints : List DtsEntryPoint) (cache : List String)
    (imports : String → Option (List String)) (e : String) (ds : List String)
    (hmem : (e, ds) ∈ buildEdges (entryPoints.map (fun ep => norm ep.dtsFile))
      (buildEntryRoots entryPoints cache) (buildSpecifierMap entryPoints cache)
      cache imports)
    (d : String) (hd : d ∈ ds) :
    d ∈ entryPoints.map (fun ep => norm ep.dtsFile) ∧ d ≠ e := by
  unfold buildEdges at hmem
  have hmain := foldl_inv
    (fun acc : List (String × List String) => ∀ pr ∈ acc, ∀ d' ∈ pr.2,
      d' ∈ entryPoints.map (fun ep => norm ep.dtsFile) ∧ d' ≠ pr.1)
    (fun acc entry =>
      match imports entry with
      | none => acc
      | some specs =>
        let deps := specs.foldl (fun ds spec =>
          match resolveSpecifierToEntry (entryPoints.map (fun ep => norm ep.dtsFile))
            (buildEntryRoots entryPoints cache) (buildSpecifierMap entryPoints cache)
            cache spec entry with
          | none => ds
          | some resolved => if resolved = entry then ds else setAdd ds resolved) []
        mapSet acc entry deps)
    (entryPoints.map (fun ep => norm ep.dtsFile)) [] (by simp) ?_
  · exact hmain (e, ds) hmem d hd
  intro acc entry hentry hacc
  dsimp only
  cases him : imports entry with
  | none => exact hacc
  | some specs =>
    dsimp only
    have hdeps : ∀ d' ∈ specs.foldl (fun ds' spec =>
        match resolveSpecifierToEntry (entryPoints.map (fun ep => norm ep.dtsFile))
          (buildEntryRoots entryPoints cache) (buildSpecifierMap entryPoints cache)
          cache spec entry with
        | none => ds'
        | some resolved => if resolved = entry then ds' else setAdd ds' resolved) [],
        d' ∈ entryPoints.map (fun ep => norm ep.dtsFile) ∧ d' ≠ entry := by
      refine foldl_inv (fun ds' => ∀ d' ∈ ds',
        d' ∈ entryPoints.map (fun ep => norm ep.dtsFile) ∧ d' ≠ entry)
        _ specs [] (by simp) ?_
      intro ds' spec hspec hds'
      dsimp only
      cases hres : resolveSpecifierToEntry (entryPoints.map (fun ep => norm ep.dtsFile))
          (buildEntryRoots entryPoints cache) (buildSpecifierMap entryPoints cache)
          cache spec entry with
      | none => exact hds'
      | some resolved =>
        dsimp only
        by_cases heq : resolved = entry
        · rw [if_pos heq]; exact hds'
        · rw [if_neg heq]
          intro d' hd'
          unfold setAdd at hd'
          by_cases hin : resolved ∈ ds'
          · rw [if_pos hin] at hd'; exact hds' d' hd'
          · rw [if_neg hin] at hd'
            rcases List.mem_append.mp hd' with h | h
            · exact hds' d' h
            · rw [List.mem_singleton.mp h]
              refine ⟨?_, heq⟩
              rcases resolveSpecifierToEntry_mem _ _ _ _ _ _ _ hres with h' | ⟨pq, hpq, hpq2⟩
              · exact h'
              · exact hpq2 ▸ buildSpecifierMap_values entryPoints cache pq hpq
    intro pr hpr
    rcases mem_mapSet _ _ _ _ hpr with h | h
    · exact hacc pr h
    · rw [h]
      exact hdeps

theorem mapFind_after_set (m : List (String × String)) (k k' v file : String)
    (hv : k = k' → v = file) (h : mapFind m k = some file) :
    mapFind (mapSet m k' v) k = some file := by
  rw [mapFind_mapSet]
  by_cases hk : k = k'
  · rw [if_pos hk, hv hk]
  · rw [if_neg hk]; exact h

theorem specifierStep_preserves (cache : List String) (k file : String)
    (m : List (String × String)) (ep' : DtsEntryPoint)
    (hk : ep'.aliasName ≠ "" → norm ep'.dtsFile ∈ cache →
      (k = ep'.aliasName ∨ k = cleanedAlias ep'.aliasName) →
      norm ep'.dtsFile = file)
    (h : mapFind m k = some file) :
    mapFind (specifierStep cache m ep') k = some file := by
  unfold specifierStep
  by_cases h1 : ep'.aliasName = ""
  · rw [if_pos h1]; exact h
  · rw [if_neg h1]
    by_cases h2 : norm ep'.dtsFile ∈ cache
    · rw [if_pos h2]
      dsimp only
      have s1 : mapFind (mapSet m ep'.aliasName (norm ep'.dtsFile)) k = some file :=
        mapFind_after_set m k _ _ file (fun he => hk h1 h2 (Or.inl he)) h
      have s2 : mapFind (if cleanedAlias ep'.aliasName ≠ "" ∧
          cleanedAlias ep'.aliasName ≠ ep'.aliasName then
          mapSet (mapSet m ep'.aliasName (norm ep'.dtsFile))
            (cleanedAlias ep'.aliasName) (norm ep'.dtsFile)
          else mapSet m ep'.aliasName (norm ep'.dtsFile)) k = some file := by
        by_cases h3 : cleanedAlias ep'.aliasName ≠ "" ∧
            cleanedAlias ep'.aliasName ≠ ep'.aliasName
        · rw [if_pos h3]
          exact mapFind_after_set _ k _ _ file (fun he => hk h1 h2 (Or.inr he)) s1
        · rw [if_neg h3]; exact s1
      by_cases h4 : basename (norm ep'.dtsFile) = "index.d.ts"
      · rw [if_pos h4]
        exact mapFind_after_set _ k _ _ file (fun he => hk h1 h2 (Or.inr he)) s2
      · rw [if_neg h4]; exact s2
    · rw [if_neg h2]; exact h

theorem specifierStep_registers (cache : List String)
    (m : List (String × String)) (ep : DtsEntryPoint)
    (halias : ep.aliasName ≠ "") (hfile : norm ep.dtsFile ∈ cache) :
    mapFind (specifierStep cache m ep) ep.aliasName = some (norm ep.dtsFile) ∧
    (cleanedAlias ep.aliasName ≠ "" →
      mapFind (specifierStep cache m ep) (cleanedAlias ep.aliasName)
        = some (norm ep.dtsFile)) ∧
    (basename (norm ep.dtsFile) = "index.d.ts" →
      mapFind (specifierStep cache m ep) (cleanedAlias ep.aliasName)
        = some (norm ep.dtsFile)) := by
  unfold specifierStep
  rw [if_neg halias, if_pos hfile]
  dsimp only
  by_cases h4 : basename (norm ep.dtsFile) = "index.d.ts"
  · rw [if_pos h4]
    refine ⟨?_, fun _ => ?_, fun _ => ?_⟩
    · rw [mapFind_mapSet]
      by_cases hca : ep.aliasName = cleanedAlias ep.aliasName
      · rw [if_pos hca]
      · rw [if_neg hca]
        by_cases h3 : cleanedAlias ep.aliasName ≠ "" ∧
            cleanedAlias ep.aliasName ≠ ep.aliasName
        · rw [if_pos h3, mapFind_mapSet, if_neg hca, mapFind_mapSet, if_pos rfl]
        · rw [if_neg h3, mapFind_mapSet, if_pos rfl]
    · rw [mapFind_mapSet, if_pos rfl]
    · rw [mapFind_mapSet, if_pos rfl]
  · rw [if_neg h4]
    refine ⟨?_, fun hcne => ?_, fun hidx => absurd hidx h4⟩
    · by_cases h3 : cleanedAlias ep.aliasName ≠ "" ∧
          cleanedAlias ep.aliasName ≠ ep.aliasName
      · rw [if_pos h3, mapFind_mapSet, if_neg (fun he => h3.2 he.symm),
          mapFind_mapSet, if_pos rfl]
      · rw [if_neg h3, mapFind_mapSet, if_pos rfl]
    · by_cases h5 : cleanedAlias ep.aliasName = ep.aliasName
      · rw [h5]
        rw [if_neg (by simp : ¬ (ep.aliasName ≠ "" ∧ ep.aliasName ≠ ep.aliasName)),
          mapFind_mapSet, if_pos rfl]
      · rw [if_pos ⟨hcne, h5⟩, mapFind_mapSet, if_pos rfl]

/-- **C5.** For every entry whose canonical file is loaded,
`buildSpecifierMap` registers three specifier forms all mapping to that
entry's file: the exact alias, the alias with trailing wildcard/slash
stripped (when non-empty), and — when the target file is a canonical
`index.d.ts` — the cleaned containing-directory form of the specifier
(no other entry registering one of these keys may map it elsewhere, since
`Map.set` overwrites). -/
theorem buildSpecifierMap_registers (entryPoints : List DtsEntryPoint)
    (cache : List String) (ep : DtsEntryPoint) (hep : ep ∈ entryPoints)
    (halias : ep.aliasName ≠ "") (hfile : norm ep.dtsFile ∈ cache)
    (hnoclash : ∀ ep' ∈ entryPoints, ep'.aliasName ≠ "" →
      norm ep'.dtsFile ∈ cache →
      (ep'.aliasName = ep.aliasName ∨ ep'.aliasName = cleanedAlias ep.aliasName ∨
        cleanedAlias ep'.aliasName = ep.aliasName ∨
        cleanedAlias ep'.aliasName = cleanedAlias ep.aliasName) →
      norm ep'.dtsFile = norm ep.dtsFile) :
    mapFind (buildSpecifierMap entryPoints cache) ep.aliasName
      = some (norm ep.dtsFile) ∧
    (cleanedAlias ep.aliasName ≠ "" →
      mapFind (buildSpecifierMap entryPoints cache) (cleanedAlias ep.aliasName)
        = some (norm ep.dtsFile)) ∧
    (basename (norm ep.dtsFile) = "index.d.ts" →
      mapFind (buildSpecifierMap entryPoints cache) (cleanedAlias ep.aliasName)
        = some (norm ep.dtsFile)) := by
  obtain ⟨l1, l2, rfl⟩ := List.append_of_mem hep
  have hfold : buildSpecifierMap (l1 ++ ep :: l2) cache
      = l2.foldl (specifierStep cache)
          (specifierStep cache (l1.foldl (specifierStep cache) []) ep) := by
    unfold buildSpecifierMap
    rw [List.foldl_append, List.foldl_cons]
  have hreg := specifierStep_registers cache (l1.foldl (specifierStep cache) [])
    ep halias hfile
  have hpres : ∀ k, mapFind (specifierStep cache (l1.foldl (specifierStep cache) []) ep) k
      = some (norm ep.dtsFile) →
      (k = ep.aliasName ∨ k = cleanedAlias ep.aliasName) →
      mapFind (buildSpecifierMap (l1 ++ ep :: l2) cache) k = some (norm ep.dtsFile) := by
    intro k hk hkk
    rw [hfold]
    refine foldl_inv (fun m => mapFind m k = some (norm ep.dtsFile))
      (specifierStep cache) l2 _ hk ?_
    intro m ep' hep' hm
    apply specifierStep_preserves cache k (norm ep.dtsFile) m ep' ?_ hm
    intro h1 h2 hor
    apply hnoclash ep' (by simp [hep']) h1 h2
    rcases hkk with hk1 | hk1
    · rcases hor with h | h
      · exact Or.inl (by rw [← h, hk1])
      · exact Or.inr (Or.inr (Or.inl (by rw [← h, hk1])))
    · rcases hor with h | h
      · exact Or.inr (Or.inl (by rw [← h, hk1]))
      · exact Or.inr (Or.inr (Or.inr (by rw [← h, hk1])))
  refine ⟨?_, fun hcne => ?_, fun hidx => ?_⟩
  · exact hpres ep.aliasName hreg.1 (Or.inl rfl)
  · exact hpres (cleanedAlias ep.aliasName) (hreg.2.1 hcne) (Or.inr rfl)
  · exact hpres (cleanedAlias ep.aliasName) (hreg.2.2 hidx) (Or.inr rfl)

/-- **C10.** `getExportsForEntry` is total and returns the empty set rather
than an absent value when no types were collected for the path. -/
theorem getExportsForEntry_total (exportedTypes : List (String × List String))
    (entryFile : String) (h : mapFind exportedTypes entryFile = none) :
    getExportsForEntry exportedTypes entryFile = [] := by
  unfold getExportsForEntry
  rw [h]
  rfl

theorem findAllLoop_inv (cache : List String) (specMap : List (String × String))
    (specsOf : String → List String) (root : String) :
    ∀ fuel queue seen, seen.Nodup →
      (∀ f ∈ seen, strStartsWith f root ∧
        (strEndsWith f ".d.ts" ∨ strEndsWith f ".d.mts")) →
      (findAllLoop cache specMap specsOf root fuel queue seen).Nodup ∧
      ∀ f ∈ findAllLoop cache specMap specsOf root fuel queue seen,
        strStartsWith f root ∧ (strEndsWith f ".d.ts" ∨ strEndsWith f ".d.mts") := by
  intro fuel
  induction fuel with
  | zero =>
    intro queue seen h1 h2
    simp only [findAllLoop]
    exact ⟨h1, h2⟩
  | succ fuel ih =>
    intro queue seen h1 h2
    simp only [findAllLoop]
    cases hq : queue.getLast? with
    | none => exact ⟨h1, h2⟩
    | some file =>
      dsimp only
      by_cases hs : norm file ∈ seen
      · rw [if_pos hs]; exact ih _ _ h1 h2
      · rw [if_neg hs]
        by_cases hc : ¬ (norm file ∈ cache ∧
            (strEndsWith (norm file) ".d.ts" ∨ strEndsWith (norm file) ".d.mts"))
        · rw [if_pos hc]; exact ih _ _ h1 h2
        · rw [if_neg hc]
          by_cases hr : ¬ strStartsWith (norm file) root
          · rw [if_pos hr]; exact ih _ _ h1 h2
          · rw [if_neg hr]
            push_neg at hc hr
            apply ih
            · exact List.Nodup.append h1 (List.nodup_singleton _)
                (fun a ha ha' => hs ((List.mem_singleton.mp ha') ▸ ha))
            · intro f hf
              rcases List.mem_append.mp hf with h | h
              · exact h2 f h
              · rw [List.mem_singleton.mp h]
                exact ⟨hr, hc.2⟩

/-- **C4.** Every file in the set returned by `findAllDtsFilesFromEntry`
lies under the entry's root directory, ends in `.d.ts` or `.d.mts`, and
appears exactly once. -/
theorem findAllDtsFilesFromEntry_spec (cache : List String)
    (specMap : List (String × String)) (specsOf : String → List String)
    (root entry : String) :
    (findAllDtsFilesFromEntry cache specMap specsOf root entry).Nodup ∧
    ∀ f ∈ findAllDtsFilesFromEntry cache specMap specsOf root entry,
      strStartsWith f root ∧ (strEndsWith f ".d.ts" ∨ strEndsWith f ".d.mts") :=
  findAllLoop_inv cache specMap specsOf root _ _ _ List.nodup_nil (by simp)

end DtsBundler
namespace DtsBundler

theorem buildEdges_targets_witness :
    (("/b/index.d.ts", ["/a/index.d.ts"])
      ∈ buildEdges ([epW1, epW2].map (fun ep => norm ep.dtsFile))
        (buildEntryRoots [epW1, epW2] cacheW)
        (buildSpecifierMap [epW1, epW2] cacheW) cacheW importsW) ∧
    "/a/index.d.ts" ∈ (["/a/index.d.ts"] : List String) ∧
    ("/a/index.d.ts" ∈ [epW1, epW2].map (fun ep => norm ep.dtsFile) ∧
      "/a/index.d.ts" ≠ "/b/index.d.ts") :=
  ⟨by decide, by decide,
    buildEdges_targets [epW1, epW2] cacheW importsW "/b/index.d.ts"
      ["/a/index.d.ts"] (by decide) "/a/index.d.ts" (by decide)⟩

theorem buildSpecifierMap_registers_witness :
    epW1 ∈ [epW1] ∧ epW1.aliasName ≠ "" ∧ norm epW1.dtsFile ∈ cacheW ∧
    (∀ ep' ∈ [epW1], ep'.aliasName ≠ "" → norm ep'.dtsFile ∈ cacheW →
      (ep'.aliasName = epW1.aliasName ∨ ep'.aliasName = cleanedAlias epW1.aliasName ∨
        cleanedAlias ep'.aliasName = epW1.aliasName ∨
        cleanedAlias ep'.aliasName = cleanedAlias epW1.aliasName) →
      norm ep'.dtsFile = norm epW1.dtsFile) ∧
    (mapFind (buildSpecifierMap [epW1] cacheW) epW1.aliasName
        = some (norm epW1.dtsFile) ∧
      (cleanedAlias epW1.aliasName ≠ "" →
        mapFind (buildSpecifierMap [epW1] cacheW) (cleanedAlias epW1.aliasName)
          = some (norm epW1.dtsFile)) ∧
      (basename (norm epW1.dtsFile) = "index.d.ts" →
        mapFind (buildSpecifierMap [epW1] cacheW) (cleanedAlias epW1.aliasName)
          = some (norm epW1.dtsFile))) :=
  ⟨by decide, by decide, by decide, by decide,
    buildSpecifierMap_registers [epW1] cacheW epW1 (by decide) (by decide)
      (by decide) (by decide)⟩

theorem getExportsForEntry_total_witness :
    mapFind [("/a/index.d.ts", ["Foo"])] "/b/index.d.ts" = none ∧
    getExportsForEntry [("/a/index.d.ts", ["Foo"])] "/b/index.d.ts" = [] :=
  ⟨by decide, getExportsForEntry_total [("/a/index.d.ts", ["Foo"])]
    "/b/index.d.ts" (by decide)⟩

theorem findAllDtsFilesFromEntry_witness :
    "/r/index.d.ts" ∈ findAllDtsFilesFromEntry ["/r/index.d.ts"] []
      (fun _ => []) "/r" "/r/index.d.ts" ∧
    (findAllDtsFilesFromEntry ["/r/index.d.ts"] [] (fun _ => []) "/r"
      "/r/index.d.ts").Nodup ∧
    (strStartsWith "/r/index.d.ts" "/r" ∧
      (strEndsWith "/r/index.d.ts" ".d.ts" ∨ strEndsWith "/r/index.d.ts" ".d.mts")) :=
  ⟨by decide,
    (findAllDtsFilesFromEntry_spec ["/r/index.d.ts"] [] (fun _ => []) "/r"
      "/r/index.d.ts").1,
    (findAllDtsFilesFromEntry_spec ["/r/index.d.ts"] [] (fun _ => []) "/r"
      "/r/index.d.ts").2 "/r/index.d.ts" (by decide)⟩

end DtsBundler

namespace DtsBundler

/-- **C8.** For the alias set `{"@pkg/a": "src/a", "@pkg/a/sub": "src/a/sub"}`,
the hierarchy attaches the `sub` node as the child of the `@pkg/a` node, and
`calculateRelativePaths` gives the `sub` entry `parentAlias = "@pkg/a"` and
`relativePath = "./sub"` while the root entry gets `relativePath = "."`. -/
theorem hierarchy_example :
    buildHierarchyParents [epP1, epP2] = [none, some 0] ∧
    childrenIdx (sortBySegLength [epP1, epP2]) 0 = [1] ∧
    (calculateRelativePaths [epP1, epP2]).find?
        (fun ep => ep.aliasName == "@pkg/a/sub")
      = some { epP2 with relativePath := some "./sub", parentAlias := some "@pkg/a" } ∧
    (calculateRelativePaths [epP1, epP2]).find?
        (fun ep => ep.aliasName == "@pkg/a")
      = some { epP1 with relativePath := some "." } := by
  decide

theorem collapseUnderscores_head (b : Char) (rest : List Char) :
    ∃ t, collapseUnderscores (b :: rest) = b :: t := by
  induction rest generalizing b with
  | nil => exact ⟨[], rfl⟩
  | cons c r ih =>
    by_cases h : b = '_' ∧ c = '_'
    · obtain ⟨t, ht⟩ := ih c
      refine ⟨t, ?_⟩
      have hc : collapseUnderscores (b :: c :: r) = collapseUnderscores (c :: r) := by
        simp [collapseUnderscores, h]
      rw [hc, ht, h.2, ← h.1]
    · refine ⟨collapseUnderscores (c :: r), ?_⟩
      simp [collapseUnderscores, h]

theorem collapse_dropWhile_comm (l : List Char) :
    collapseUnderscores (l.dropWhile (· = '_'))
      = (collapseUnderscores l).dropWhile (· = '_') := by
  induction l with
  | nil => rfl
  | cons a l ih =>
    cases l with
    | nil =>
      by_cases h : a = '_' <;> simp [collapseUnderscores, List.dropWhile, h]
    | cons b rest =>
      by_cases ha : a = '_'
      · by_cases hb : b = '_'
        · have hcol : collapseUnderscores (a :: b :: rest)
              = collapseUnderscores (b :: rest) := by
            simp [collapseUnderscores, ha, hb]
          have hdw : (a :: b :: rest).dropWhile (· = '_')
              = (b :: rest).dropWhile (· = '_') := by
            simp [List.dropWhile, ha]
          rw [hcol, hdw, ih]
        · have hcol : collapseUnderscores (a :: b :: rest)
              = a :: collapseUnderscores (b :: rest) := by
            simp [collapseUnderscores, hb]
          obtain ⟨t, ht⟩ := collapseUnderscores_head b rest
          have hdw : (a :: b :: rest).dropWhile (· = '_') = b :: rest := by
            simp [List.dropWhile, ha, hb]
          rw [hcol, ht, hdw, ht]
          simp [List.dropWhile, ha, hb]
      · have hdw : (a :: b :: rest).dropWhile (· = '_') = a :: b :: rest := by
          simp [List.dropWhile, ha]
        obtain ⟨t, ht⟩ := collapseUnderscores_head a (b :: rest)
        rw [hdw, ht]
        simp [List.dropWhile, ha]

/-- **C9.** The generated import alias is a deterministic function of the
specifier alone, equal to the specification's derivation (strip
non-alphanumeric characters, collapse repeats, drop the leading underscore,
fallback `external`); in particular `"@foo/bar-baz"` yields
`"foo_bar_baz"`. -/
theorem getImportAlias_spec :
    (∀ s, getImportAlias s = getImportAliasSpec s) ∧
    getImportAlias "@foo/bar-baz" = "foo_bar_baz" := by
  constructor
  · intro s
    unfold getImportAlias getImportAliasSpec dropLeadingUnderscores
    rw [collapse_dropWhile_comm (replaceNonAlnum s.toList)]
  · decide

theorem samePkgExportBranch_errors (fileNames : List String)
    (resolveModulePath : String → String → String) (spec : String) :
    ∃ e, samePkgExportBranch fileNames resolveModulePath spec = .error e := by
  cases fileNames with
  | nil => exact ⟨"TypeError: cannot read fileName of undefined", rfl⟩
  | cons f rest => exact ⟨"ReferenceError: modulePath is not initialized", rfl⟩

/-- **C6.** For every export declaration carrying a named export clause and
a same-package (relative) module specifier, the handler reads the computed
`modulePath` variable before the statement that assigns it, so evaluation of
that branch cannot complete normally. -/
theorem processExportDeclaration_tdz (fileNames : List String)
    (resolveModulePath : String → String → String) (els : List String)
    (spec : String) (hsp : isSamePackage spec = true) :
    ∃ e, processExportDeclaration fileNames resolveModulePath (some els)
      (some spec) = .error e := by
  obtain ⟨e, he⟩ := samePkgExportBranch_errors fileNames resolveModulePath spec
  refine ⟨e, ?_⟩
  unfold processExportDeclaration
  dsimp only
  rw [if_pos hsp, he]

theorem processExportDeclaration_tdz_witness :
    isSamePackage "./m" = true ∧
    ∃ e, processExportDeclaration ["/p/a.d.ts"] (fun _ _ => "")
      (some ["Foo"]) (some "./m") = .error e :=
  ⟨by decide, processExportDeclaration_tdz ["/p/a.d.ts"] (fun _ _ => "")
    ["Foo"] "./m" (by decide)⟩

end DtsBundler

namespace DtsBundler

theorem lexLe_total (a : List Char) : ∀ b, lexLe a b = true ∨ lexLe b a = true := by
  induction a with
  | nil => intro b; left; rfl
  | cons x as ih =>
    intro b
    cases b with
    | nil => right; rfl
    | cons y bs =>
      by_cases hxy : x = y
      · subst hxy
        rcases ih bs with h | h
        · left; simpa [lexLe] using h
        · right; simpa [lexLe] using h
      · rcases lt_or_gt_of_ne hxy with h | h
        · left
          simp only [lexLe, if_neg hxy]
          simpa using h
        · right
          have hyx : ¬ y = x := fun he => hxy he.symm
          simp only [lexLe, if_neg hyx]
          simpa using h

theorem lexLe_trans : ∀ a b c : List Char,
    lexLe a b = true → lexLe b c = true → lexLe a c = true
  | [], _, _, _, _ => rfl
  | _ :: _, [], _, h1, _ => by simp [lexLe] at h1
  | _ :: _, _ :: _, [], _, h2 => by simp [lexLe] at h2
  | x :: as, y :: bs, z :: cs, h1, h2 => by
    by_cases hxy : x = y
    · subst hxy
      by_cases hyz : x = z
      · subst hyz
        simp only [lexLe, if_pos rfl] at h1 h2 ⊢
        exact lexLe_trans as bs cs h1 h2
      · simp only [lexLe, if_pos rfl] at h1
        simpa [lexLe, hyz] using h2
    · by_cases hyz : y = z
      · subst hyz
        simpa [lexLe, hxy] using h1
      · simp [lexLe, hxy] at h1
        simp [lexLe, hyz] at h2
        have hxz : x < z := lt_trans h1 h2
        simp [lexLe, ne_of_lt hxz, hxz]

theorem lexLe_antisymm : ∀ a b : List Char,
    lexLe a b = true → lexLe b a = true → a = b
  | [], [], _, _ => rfl
  | [], _ :: _, _, h2 => by simp [lexLe] at h2
  | _ :: _, [], h1, _ => by simp [lexLe] at h1
  | x :: as, y :: bs, h1, h2 => by
    by_cases hxy : x = y
    · subst hxy
      simp only [lexLe, if_pos rfl] at h1 h2
      rw [lexLe_antisymm as bs h1 h2]
    · have hyx : ¬ y = x := fun he => hxy he.symm
      simp only [lexLe, if_neg hxy] at h1
      simp only [lexLe, if_neg hyx] at h2
      rw [decide_eq_true_eq] at h1 h2
      exact absurd h2 (lt_asymm h1)

instance : IsTotal String strLeP := ⟨fun a b => lexLe_total a.toList b.toList⟩

instance : IsTrans String strLeP := ⟨fun a b c => lexLe_trans a.toList b.toList c.toList⟩

instance : IsAntisymm String strLeP := ⟨fun a b h1 h2 => by
  cases a with | mk da =>
  cases b with | mk db =>
  rw [lexLe_antisymm da db h1 h2]⟩

theorem sortStrings_eq_of_perm (l1 l2 : List String) (h : l1.Perm l2) :
    sortStrings l1 = sortStrings l2 :=
  List.eq_of_perm_of_sorted
    ((List.perm_insertionSort strLeP l1).trans
      (h.trans (List.perm_insertionSort strLeP l2).symm))
    (List.sorted_insertionSort strLeP l1) (List.sorted_insertionSort strLeP l2)

theorem mem_setAdd (s : List String) (y x : String) :
    x ∈ setAdd s y ↔ x ∈ s ∨ x = y := by
  unfold setAdd
  by_cases h : y ∈ s
  · rw [if_pos h]
    constructor
    · exact Or.inl
    · rintro (h' | rfl)
      · exact h'
      · exact h
  · rw [if_neg h]
    simp [List.mem_append]

theorem setAdd_nodup (s : List String) (y : String) (h : s.Nodup) :
    (setAdd s y).Nodup := by
  unfold setAdd
  by_cases hm : y ∈ s
  · rw [if_pos hm]; exact h
  · rw [if_neg hm]
    exact List.Nodup.append h (List.nodup_singleton y)
      (fun a ha ha' => hm ((List.mem_singleton.mp ha') ▸ ha))

theorem mapSet_map_fst {β : Type} (m : List (String × β)) (k : String) (v : β) :
    (mapSet m k v).map Prod.fst =
      if (mapFind m k).isSome then m.map Prod.fst else m.map Prod.fst ++ [k] := by
  have hiff : (mapFind m k).isSome = (m.find? (fun p => p.1 == k)).isSome := by
    unfold mapFind
    cases m.find? (fun p => p.1 == k) <;> rfl
  unfold mapSet
  by_cases hs : (m.find? (fun p => p.1 == k)).isSome
  · rw [if_pos hs, if_pos (by rw [hiff]; exact hs)]
    rw [List.map_map]
    apply List.map_congr_left
    intro p _
    by_cases hp : p.1 = k
    · simp [hp]
    · simp [hp]
  · rw [if_neg hs, if_neg (by rw [hiff]; exact hs)]
    simp

theorem mapFind_isSome_iff {β : Type} (m : List (String × β)) (k : String) :
    (mapFind m k).isSome ↔ k ∈ m.map Prod.fst := by
  unfold mapFind
  have h1 : ((m.find? (fun p => p.1 == k)).map (·.2)).isSome
      = (m.find? (fun p => p.1 == k)).isSome := by
    cases m.find? (fun p => p.1 == k) <;> rfl
  rw [h1, List.find?_isSome]
  constructor
  · rintro ⟨p, hp, he⟩
    exact List.mem_map.mpr ⟨p, hp, by simpa using he⟩
  · intro hk
    rcases List.mem_map.mp hk with ⟨p, hp, he⟩
    exact ⟨p, hp, by simpa using he⟩

end DtsBundler
namespace DtsBundler

theorem addSymbol_find_ne (declared : List String) (k : String)
    (m : List (String × List String)) (sym k' : String) (hk : k' ≠ k) :
    mapFind (addSymbol declared k m sym) k' = mapFind m k' := by
  unfold addSymbol
  by_cases h1 : sym ∈ declared
  · rw [if_pos h1]
  · rw [if_neg h1]
    cases hf : mapFind m k with
    | none =>
      dsimp only
      rw [mapFind_mapSet, if_neg hk]
    | some v =>
      dsimp only
      rw [mapFind_mapSet, if_neg hk]

theorem addSymbol_foldl_find_ne (declared : List String) (k : String)
    (syms : List String) : ∀ m k', k' ≠ k →
    mapFind (syms.foldl (addSymbol declared k) m) k' = mapFind m k' := by
  induction syms with
  | nil => intro m k' _; rfl
  | cons sym rest ih =>
    intro m k' hk
    rw [List.foldl_cons, ih _ _ hk, addSymbol_find_ne declared k m sym k' hk]

theorem addSymbol_foldl_keys (declared : List String) (k : String)
    (syms : List String) : ∀ m,
    (syms.foldl (addSymbol declared k) m).map Prod.fst =
      (if k ∈ m.map Prod.fst ∨ ∀ s ∈ syms, s ∈ declared then m.map Prod.fst
        else m.map Prod.fst ++ [k]) := by
  induction syms with
  | nil =>
    intro m
    rw [if_pos (Or.inr (by simp))]
    rfl
  | cons sym rest ih =>
    intro m
    rw [List.foldl_cons]
    by_cases h1 : sym ∈ declared
    · have hstep : addSymbol declared k m sym = m := by
        unfold addSymbol; rw [if_pos h1]
      rw [hstep, ih m]
      apply if_congr ?_ rfl rfl
      constructor
      · rintro (h | h)
        · exact Or.inl h
        · refine Or.inr ?_
          intro s hs
          rcases List.mem_cons.mp hs with rfl | hs'
          · exact h1
          · exact h s hs'
      · rintro (h | h)
        · exact Or.inl h
        · exact Or.inr (fun s hs => h s (List.mem_cons_of_mem _ hs))
    · have hcond : ¬ ∀ s ∈ sym :: rest, s ∈ declared :=
        fun h => h1 (h sym (List.mem_cons_self _ _))
      cases hf : mapFind m k with
      | none =>
        have hstep : addSymbol declared k m sym = mapSet m k [sym] := by
          unfold addSymbol
          rw [if_neg h1, hf]
        rw [hstep, ih _]
        have hkm : ¬ k ∈ m.map Prod.fst := by
          rw [← mapFind_isSome_iff, hf]
          simp
        have hkeys1 : (mapSet m k [sym]).map Prod.fst = m.map Prod.fst ++ [k] := by
          rw [mapSet_map_fst, if_neg (by rw [hf]; simp)]
        have hk1 : k ∈ (mapSet m k [sym]).map Prod.fst := by
          rw [hkeys1]; simp
        rw [if_pos (Or.inl hk1), hkeys1, if_neg ?_]
        rintro (h | h)
        · exact hkm h
        · exact hcond h
      | some v =>
        have hstep : addSymbol declared k m sym = mapSet m k (setAdd v sym) := by
          unfold addSymbol
          rw [if_neg h1, hf]
        rw [hstep, ih _]
        have hkm : k ∈ m.map Prod.fst := by
          rw [← mapFind_isSome_iff, hf]; rfl
        have hkeys1 : (mapSet m k (setAdd v sym)).map Prod.fst = m.map Prod.fst := by
          rw [mapSet_map_fst, if_pos (by rw [hf]; rfl)]
        rw [if_pos (by rw [hkeys1]; exact Or.inl hkm), hkeys1,
          if_pos (Or.inl hkm)]

theorem addSymbol_foldl_mem (declared : List String) (k : String)
    (syms : List String) : ∀ m x,
    (x ∈ (mapFind (syms.foldl (addSymbol declared k) m) k).getD [] ↔
      x ∈ (mapFind m k).getD [] ∨ (x ∈ syms ∧ ¬ x ∈ declared)) := by
  induction syms with
  | nil =>
    intro m x
    simp
  | cons sym rest ih =>
    intro m x
    rw [List.foldl_cons]
    by_cases h1 : sym ∈ declared
    · have hstep : addSymbol declared k m sym = m := by
        unfold addSymbol; rw [if_pos h1]
      rw [hstep, ih m x]
      constructor
      · rintro (h | ⟨h2, h3⟩)
        · exact Or.inl h
        · exact Or.inr ⟨List.mem_cons_of_mem _ h2, h3⟩
      · rintro (h | ⟨h2, h3⟩)
        · exact Or.inl h
        · rcases List.mem_cons.mp h2 with rfl | h2'
          · exact absurd h1 h3
          · exact Or.inr ⟨h2', h3⟩
    · cases hf : mapFind m k with
      | none =>
        have hstep : addSymbol declared k m sym = mapSet m k [sym] := by
          unfold addSymbol
          rw [if_neg h1, hf]
        rw [hstep, ih _ x, mapFind_mapSet, if_pos rfl]
        simp only [Option.getD_some, Option.getD_none, List.mem_singleton,
          List.not_mem_nil, false_or]
        constructor
        · rintro (rfl | ⟨h2, h3⟩)
          · exact ⟨List.mem_cons_self _ _, h1⟩
          · exact ⟨List.mem_cons_of_mem _ h2, h3⟩
        · rintro ⟨h2, h3⟩
          rcases List.mem_cons.mp h2 with rfl | h2'
          · exact Or.inl rfl
          · exact Or.inr ⟨h2', h3⟩
      | some v =>
        have hstep : addSymbol declared k m sym = mapSet m k (setAdd v sym) := by
          unfold addSymbol
          rw [if_neg h1, hf]
        rw [hstep, ih _ x, mapFind_mapSet, if_pos rfl]
        simp only [Option.getD_some]
        rw [mem_setAdd]
        constructor
        · rintro ((h | rfl) | ⟨h2, h3⟩)
          · exact Or.inl h
          · exact Or.inr ⟨List.mem_cons_self _ _, h1⟩
          · exact Or.inr ⟨List.mem_cons_of_mem _ h2, h3⟩
        · rintro (h | ⟨h2, h3⟩)
          · exact Or.inl (Or.inl h)
          · rcases List.mem_cons.mp h2 with rfl | h2'
            · exact Or.inl (Or.inr rfl)
            · exact Or.inr ⟨h2', h3⟩

theorem addSymbol_foldl_nodup (declared : List String) (k : String)
    (syms : List String) : ∀ m,
    ((mapFind m k).getD []).Nodup →
    ((mapFind (syms.foldl (addSymbol declared k) m) k).getD []).Nodup := by
  induction syms with
  | nil => intro m h; exact h
  | cons sym rest ih =>
    intro m h
    rw [List.foldl_cons]
    apply ih
    by_cases h1 : sym ∈ declared
    · have hstep : addSymbol declared k m sym = m := by
        unfold addSymbol; rw [if_pos h1]
      rw [hstep]; exact h
    · cases hf : mapFind m k with
      | none =>
        have hstep : addSymbol declared k m sym = mapSet m k [sym] := by
          unfold addSymbol
          rw [if_neg h1, hf]
        rw [hstep, mapFind_mapSet, if_pos rfl]
        simp
      | some v =>
        have hstep : addSymbol declared k m sym = mapSet m k (setAdd v sym) := by
          unfold addSymbol
          rw [if_neg h1, hf]
        rw [hstep, mapFind_mapSet, if_pos rfl]
        simp only [Option.getD_some]
        apply setAdd_nodup
        rw [hf] at h
        simpa using h

end DtsBundler
namespace DtsBundler

theorem interFold_equiv (resolveEntry : String → Option String)
    (entryPoint : String) (declared : List String) :
    ∀ (t1 t2 : List (String × List String)),
      List.Forall₂ (fun p q : String × List String =>
        p.1 = q.1 ∧ p.2.Perm q.2) t1 t2 →
    ∀ m1 m2, m1.map Prod.fst = m2.map Prod.fst →
      (∀ k x, x ∈ (mapFind m1 k).getD [] ↔ x ∈ (mapFind m2 k).getD []) →
      (∀ k, ((mapFind m1 k).getD []).Nodup) →
      (∀ k, ((mapFind m2 k).getD []).Nodup) →
      (t1.foldl (fun m p => if resolveEntry p.1 = some entryPoint then m
          else p.2.foldl (addSymbol declared p.1) m) m1).map Prod.fst
        = (t2.foldl (fun m p => if resolveEntry p.1 = some entryPoint then m
          else p.2.foldl (addSymbol declared p.1) m) m2).map Prod.fst ∧
      (∀ k x,
        x ∈ (mapFind (t1.foldl (fun m p => if resolveEntry p.1 = some entryPoint
          then m else p.2.foldl (addSymbol declared p.1) m) m1) k).getD [] ↔
        x ∈ (mapFind (t2.foldl (fun m p => if resolveEntry p.1 = some entryPoint
          then m else p.2.foldl (addSymbol declared p.1) m) m2) k).getD []) ∧
      (∀ k, ((mapFind (t1.foldl (fun m p => if resolveEntry p.1 = some entryPoint
          then m else p.2.foldl (addSymbol declared p.1) m) m1) k).getD []).Nodup) ∧
      (∀ k, ((mapFind (t2.foldl (fun m p => if resolveEntry p.1 = some entryPoint
          then m else p.2.foldl (addSymbol declared p.1) m) m2) k).getD []).Nodup) := by
  intro t1 t2 hsim
  induction hsim with
  | nil => intro m1 m2 h1 h2 h3 h4; exact ⟨h1, h2, h3, h4⟩
  | @cons p q t1' t2' hpq hrest ih =>
    intro m1 m2 h1 h2 h3 h4
    rw [List.foldl_cons, List.foldl_cons]
    obtain ⟨hk, hperm⟩ := hpq
    by_cases hres : resolveEntry p.1 = some entryPoint
    · rw [if_pos hres, if_pos (by rw [← hk]; exact hres)]
      exact ih m1 m2 h1 h2 h3 h4
    · rw [if_neg hres, if_neg (by rw [← hk]; exact hres)]
      rw [← hk]
      apply ih
      · rw [addSymbol_foldl_keys, addSymbol_foldl_keys, h1]
        apply if_congr ?_ rfl rfl
        constructor
        · rintro (h | h)
          · exact Or.inl h
          · exact Or.inr (fun s hs => h s (hperm.mem_iff.mpr hs))
        · rintro (h | h)
          · exact Or.inl h
          · exact Or.inr (fun s hs => h s (hperm.mem_iff.mp hs))
      · intro k x
        by_cases hkk : k = p.1
        · subst hkk
          rw [addSymbol_foldl_mem, addSymbol_foldl_mem]
          constructor
          · rintro (h | ⟨hx, hd⟩)
            · exact Or.inl ((h2 _ x).mp h)
            · exact Or.inr ⟨hperm.mem_iff.mp hx, hd⟩
          · rintro (h | ⟨hx, hd⟩)
            · exact Or.inl ((h2 _ x).mpr h)
            · exact Or.inr ⟨hperm.mem_iff.mpr hx, hd⟩
        · rw [addSymbol_foldl_find_ne _ _ _ _ _ hkk,
            addSymbol_foldl_find_ne _ _ _ _ _ hkk]
          exact h2 k x
      · intro k
        by_cases hkk : k = p.1
        · subst hkk
          exact addSymbol_foldl_nodup _ _ _ _ (h3 _)
        · rw [addSymbol_foldl_find_ne _ _ _ _ _ hkk]
          exact h3 k
      · intro k
        by_cases hkk : k = p.1
        · subst hkk
          exact addSymbol_foldl_nodup _ _ _ _ (h4 _)
        · rw [addSymbol_foldl_find_ne _ _ _ _ _ hkk]
          exact h4 k

theorem interImportsOf_equiv (resolveEntry : String → Option String)
    (entryPoint : String) (declared : List String)
    (t1 t2 : List (String × List String))
    (hsim : List.Forall₂ (fun p q : String × List String =>
      p.1 = q.1 ∧ p.2.Perm q.2) t1 t2) :
    (interImportsOf resolveEntry entryPoint declared t1).map Prod.fst
      = (interImportsOf resolveEntry entryPoint declared t2).map Prod.fst ∧
    (∀ k x,
      x ∈ (mapFind (interImportsOf resolveEntry entryPoint declared t1) k).getD [] ↔
      x ∈ (mapFind (interImportsOf resolveEntry entryPoint declared t2) k).getD []) ∧
    (∀ k, ((mapFind (interImportsOf resolveEntry entryPoint declared t1) k).getD []).Nodup) ∧
    (∀ k, ((mapFind (interImportsOf resolveEntry entryPoint declared t2) k).getD []).Nodup) := by
  unfold interImportsOf
  exact interFold_equiv resolveEntry entryPoint declared t1 t2 hsim [] [] rfl
    (fun _ _ => Iff.rfl) (fun _ => by simp [mapFind]) (fun _ => by simp [mapFind])

end DtsBundler
namespace DtsBundler

/-- **C7.** Bundle generation is deterministic: its output is byte-identical
across runs with unchanged inputs, depending only on the *contents* of the
set-valued inputs (the external-import set and the per-specifier
imported-symbol sets), not on the orders in which those sets were
populated. -/
theorem generateBundle_deterministic (banner : String) (ext1 ext2 : List String)
    (entryPoint : String) (resolveEntry : String → Option String)
    (declared : List String) (t1 t2 : List (String × List String))
    (files : List (List Stmt))
    (hext : ext1.Perm ext2)
    (hsim : List.Forall₂ (fun p q : String × List String =>
      p.1 = q.1 ∧ p.2.Perm q.2) t1 t2) :
    generateBundle banner ext1 entryPoint resolveEntry declared t1 files
      = generateBundle banner ext2 entryPoint resolveEntry declared t2 files := by
  obtain ⟨hkeys, hmem, hnd1, hnd2⟩ :=
    interImportsOf_equiv resolveEntry entryPoint declared t1 t2 hsim
  have hsortext : sortStrings ext1 = sortStrings ext2 :=
    sortStrings_eq_of_perm _ _ hext
  have hextnil : ext1 = [] ↔ ext2 = [] := by
    rw [← List.length_eq_zero, ← List.length_eq_zero, hext.length_eq]
  have hinternil : interImportsOf resolveEntry entryPoint declared t1 = [] ↔
      interImportsOf resolveEntry entryPoint declared t2 = [] := by
    constructor
    · intro h
      have := hkeys
      rw [h] at this
      exact List.map_eq_nil_iff.mp this.symm
    · intro h
      have := hkeys
      rw [h] at this
      exact List.map_eq_nil_iff.mp this
  have hvals : ∀ spec,
      sortStrings ((mapFind (interImportsOf resolveEntry entryPoint declared t1)
        spec).getD [])
      = sortStrings ((mapFind (interImportsOf resolveEntry entryPoint declared t2)
        spec).getD []) :=
    fun spec => sortStrings_eq_of_perm _ _
      ((List.perm_ext_iff_of_nodup (hnd1 spec) (hnd2 spec)).mpr (hmem spec))
  unfold generateBundle
  dsimp only
  rw [hsortext, hkeys]
  have hfun : (fun spec =>
      if sortStrings ((mapFind (interImportsOf resolveEntry entryPoint declared t1)
          spec).getD []) ≠ [] then
        "import \x7b " ++ joinWith ", "
          (sortStrings ((mapFind (interImportsOf resolveEntry entryPoint declared t1)
            spec).getD [])) ++ " \x7d from " ++ quoted spec ++ ";"
      else
        "import * as " ++ getImportAlias spec ++ " from " ++ quoted spec ++ ";")
      = (fun spec =>
      if sortStrings ((mapFind (interImportsOf resolveEntry entryPoint declared t2)
          spec).getD []) ≠ [] then
        "import \x7b " ++ joinWith ", "
          (sortStrings ((mapFind (interImportsOf resolveEntry entryPoint declared t2)
            spec).getD [])) ++ " \x7d from " ++ quoted spec ++ ";"
      else
        "import * as " ++ getImportAlias spec ++ " from " ++ quoted spec ++ ";") :=
    funext (fun spec => by rw [hvals spec])
  rw [hfun]
  by_cases hI1 : interImportsOf resolveEntry entryPoint declared t1 = []
  · have hI2 := hinternil.mp hI1
    by_cases hb1 : ext1 = []
    · have hb2 : ext2 = [] := hextnil.mp hb1
      simp [hI1, hI2, hb1, hb2]
    · have hb2 : ¬ ext2 = [] := fun h => hb1 (hextnil.mpr h)
      simp [hI1, hI2, hb1, hb2]
  · have hI2 : ¬ interImportsOf resolveEntry entryPoint declared t2 = [] :=
      fun h => hI1 (hinternil.mpr h)
    by_cases hb1 : ext1 = []
    · have hb2 : ext2 = [] := hextnil.mp hb1
      simp [hI1, hI2, hb1, hb2, hkeys]
    · have hb2 : ¬ ext2 = [] := fun h => hb1 (hextnil.mpr h)
      simp [hI1, hI2, hb1, hb2, hkeys]

end DtsBundler
namespace DtsBundler

theorem generateBundle_deterministic_witness :
    (["zeta", "alpha"] : List String).Perm ["alpha", "zeta"] ∧
    List.Forall₂ (fun p q : String × List String => p.1 = q.1 ∧ p.2.Perm q.2)
      [("x", ["B", "A"])] [("x", ["A", "B"])] ∧
    generateBundle "" ["zeta", "alpha"] "/e" (fun _ => none) []
        [("x", ["B", "A"])] [[Stmt.other "declare const a: number;"]]
      = generateBundle "" ["alpha", "zeta"] "/e" (fun _ => none) []
        [("x", ["A", "B"])] [[Stmt.other "declare const a: number;"]] :=
  ⟨by decide, List.Forall₂.cons ⟨rfl, by decide⟩ List.Forall₂.nil,
    generateBundle_deterministic "" ["zeta", "alpha"] ["alpha", "zeta"] "/e"
      (fun _ => none) [] [("x", ["B", "A"])] [("x", ["A", "B"])]
      [[Stmt.other "declare const a: number;"]] (by decide)
      (List.Forall₂.cons ⟨rfl, by decide⟩ List.Forall₂.nil)⟩

end DtsBundler
